import Mathlib

/-!
# eventing-kafka: consumer session engine, rate limiter and placement model

A shallow embedding of

* `pkg/common/consumer/consumer_handler.go` (`SaramaConsumerHandler`),
* `pkg/source/adapter/rate_limiter.go` (`rateLimiter`),
* `pkg/common/scheduler/placement.go`,

followed by the properties established about them.

Conventions of the embedding.

* Go objects with hidden state (the user handler, the lifecycle listener) are
  records of state-passing functions over one state type `σ`.
* Calls that leave the engine (`SetReady`, `Handle`, `errors <- err`,
  `MarkMessage`, the listener hooks) are appended, in program order, to an
  event trace carried next to the state, so that "what was called, with what,
  in which order" can be stated.
* Logging has no effect on the control flow and is left out.
* `int32` / `int64` values are integers; `int32` addition wraps explicitly.
-/

namespace EventingKafka

/-! ## Data model -/

/-- Go `error` values; `nil` is `none` of `Option Error`. -/
abbrev Error := String

/-- The fields of `sarama.ConsumerMessage` the engine passes around. -/
structure ConsumerMessage where
  Topic : String
  Partition : Int
  Offset : Int
  Key : List Nat
  Value : List Nat
  deriving DecidableEq, Repr

/-- A `context.Context`, reduced to its deadline: `none` for
`context.Background()`, `some d` (nanoseconds from creation) after
`context.WithTimeout`. -/
structure Context where
  Deadline : Option Int
  deriving DecidableEq, Repr

/-- Go `context.Background()`. -/
def Context.Background : Context := ⟨none⟩

/-- Go `context.WithTimeout(parent, timeout)`: the earlier of the parent's deadline
and the new one. -/
def Context.WithTimeout (parent : Context) (timeout : Int) : Context :=
  match parent.Deadline with
  | none => ⟨some timeout⟩
  | some d => ⟨some (min d timeout)⟩

/-- The calls the engine makes on its collaborators, as recorded in the trace. -/
inductive Event where
  /-- Call `consumer.handler.SetReady(partition, ready)`. -/
  | SetReady (partition : Int) (ready : Bool)
  /-- Call `consumer.handler.Handle(ctx, message)` together with what it returned. -/
  | Handle (ctx : Context) (message : ConsumerMessage) (mustMark : Bool) (err : Option Error)
  /-- Send `consumer.errors <- err`. -/
  | ErrorSent (err : Error)
  /-- Call `session.MarkMessage(message, "")`. -/
  | MarkMessage (message : ConsumerMessage)
  /-- Call `consumer.lifecycleListener.Setup(session)`. -/
  | ListenerSetup
  /-- Call `consumer.lifecycleListener.Cleanup(session)`. -/
  | ListenerCleanup
  deriving DecidableEq, Repr

/-- The signature `func(context.Context, *sarama.ConsumerMessage) (bool, error)` of a
message handler whose hidden state has type `σ`. -/
abbrev HandleFunc (σ : Type) := Context → ConsumerMessage → σ → (Bool × Option Error) × σ

/-- Interface `KafkaConsumerHandler`. -/
structure KafkaConsumerHandler (σ : Type) where
  Handle : HandleFunc σ
  SetReady : Int → Bool → σ → σ
  GetConsumerGroup : σ → String

/-- A `sarama.ConsumerGroupSession` as the engine uses it: `Claims()` in the order
in which the Go map is iterated, and `Done k`, telling whether
`session.Context().Done()` is closed when a claim loop checks it for the message it
took at position `k` (counting from 0) of its claim. -/
structure ConsumerGroupSession where
  Claims : List (String × List Int)
  Done : Nat → Bool

/-- A `sarama.ConsumerGroupClaim`; `Messages` is what the channel `claim.Messages()`
delivers until it is closed. -/
structure ConsumerGroupClaim where
  Topic : String
  Partition : Int
  InitialOffset : Int
  Messages : List ConsumerMessage

/-- Interface `SaramaConsumerLifecycleListener`. -/
structure SaramaConsumerLifecycleListener (σ : Type) where
  Setup : ConsumerGroupSession → σ → σ
  Cleanup : ConsumerGroupSession → σ → σ

/-- The default listener `noopSaramaConsumerLifecycleListener`. -/
def noopSaramaConsumerLifecycleListener (σ : Type) : SaramaConsumerLifecycleListener σ where
  Setup := fun _ s => s
  Cleanup := fun _ s => s

/-- Struct `SaramaConsumerHandler` (the logger is left out; the `errors` channel is
represented by the `ErrorSent` events of the trace). -/
structure SaramaConsumerHandler (σ : Type) where
  handler : KafkaConsumerHandler σ
  timeout : Int
  lifecycleListener : SaramaConsumerLifecycleListener σ

/-- Go `NewConsumerHandler` without options: no-op listener, timeout of 60 seconds. -/
def NewConsumerHandler {σ : Type} (handler : KafkaConsumerHandler σ) : SaramaConsumerHandler σ where
  handler := handler
  lifecycleListener := noopSaramaConsumerLifecycleListener σ
  timeout := 60 * 1000000000

/-- The state of everything outside the engine, and the trace of the calls made so far. -/
structure World (σ : Type) where
  state : σ
  trace : List Event

/-- A world in which nothing has been called yet. -/
def World.start {σ : Type} (s : σ) : World σ := ⟨s, []⟩

/-- Effect of `consumer.handler.SetReady(p, ready)`. -/
def World.SetReady {σ : Type} (w : World σ) (h : KafkaConsumerHandler σ) (p : Int)
    (ready : Bool) : World σ :=
  ⟨h.SetReady p ready w.state, w.trace ++ [Event.SetReady p ready]⟩

/-- Effect of `consumer.errors <- err` (the send is taken to complete). -/
def World.SendError {σ : Type} (w : World σ) (err : Error) : World σ :=
  ⟨w.state, w.trace ++ [Event.ErrorSent err]⟩

/-- Effect of `session.MarkMessage(message, "")`. -/
def World.MarkMessage {σ : Type} (w : World σ) (message : ConsumerMessage) : World σ :=
  ⟨w.state, w.trace ++ [Event.MarkMessage message]⟩

/-! ## `consumer_handler.go` -/

/-- Go `sessionClosed(session)`, at the check made for the message at position `k`. -/
def sessionClosed (session : ConsumerGroupSession) (k : Nat) : Bool :=
  session.Done k

/-- Go `Setup`. -/
def Setup {σ : Type} (consumer : SaramaConsumerHandler σ) (session : ConsumerGroupSession)
    (w : World σ) : Option Error × World σ :=
  (none, ⟨consumer.lifecycleListener.Setup session w.state, w.trace ++ [Event.ListenerSetup]⟩)

/-- The inner loop `for _, p := range ps` of `Cleanup`. -/
def cleanupPartitions {σ : Type} (consumer : SaramaConsumerHandler σ) :
    List Int → World σ → World σ
  | [], w => w
  | p :: ps, w => cleanupPartitions consumer ps (w.SetReady consumer.handler p false)

/-- The outer loop `for t, ps := range session.Claims()` of `Cleanup`. -/
def cleanupClaims {σ : Type} (consumer : SaramaConsumerHandler σ) :
    List (String × List Int) → World σ → World σ
  | [], w => w
  | (_, ps) :: rest, w => cleanupClaims consumer rest (cleanupPartitions consumer ps w)

/-- Go `Cleanup`. -/
def Cleanup {σ : Type} (consumer : SaramaConsumerHandler σ) (session : ConsumerGroupSession)
    (w : World σ) : Option Error × World σ :=
  let w1 := cleanupClaims consumer session.Claims w
  (none, ⟨consumer.lifecycleListener.Cleanup session w1.state,
    w1.trace ++ [Event.ListenerCleanup]⟩)

/-- The body of the loop of `ConsumeClaim` below the `sessionClosed` check: one call of
the handler with a fresh context, then the error and the mark branches. -/
def processMessage {σ : Type} (consumer : SaramaConsumerHandler σ) (claim : ConsumerGroupClaim)
    (message : ConsumerMessage) (w : World σ) : World σ :=
  let ctx := Context.WithTimeout Context.Background consumer.timeout
  let r := consumer.handler.Handle ctx message w.state
  let mustMark := r.1.1
  let err := r.1.2
  let w1 : World σ := ⟨r.2, w.trace ++ [Event.Handle ctx message mustMark err]⟩
  let w2 : World σ :=
    match err with
    | some e => (w1.SendError e).SetReady consumer.handler claim.Partition false
    | none => w1
  if mustMark then w2.MarkMessage message else w2

/-- The loop `for message := range claim.Messages()` of `ConsumeClaim`; `k` is the
position of the next message in the claim. It ends when the messages are exhausted
or at the first message for which the session is found closed (`break`). -/
def consumeLoop {σ : Type} (consumer : SaramaConsumerHandler σ) (session : ConsumerGroupSession)
    (claim : ConsumerGroupClaim) : Nat → List ConsumerMessage → World σ → World σ
  | _, [], w => w
  | k, message :: rest, w =>
    if sessionClosed session k then w
    else consumeLoop consumer session claim (k + 1) rest (processMessage consumer claim message w)

/-- Go `ConsumeClaim`. -/
def ConsumeClaim {σ : Type} (consumer : SaramaConsumerHandler σ) (session : ConsumerGroupSession)
    (claim : ConsumerGroupClaim) (w : World σ) : Option Error × World σ :=
  let w1 := w.SetReady consumer.handler claim.Partition true
  (none, consumeLoop consumer session claim 0 claim.Messages w1)

/-! ## Reading a trace -/

/-- One recorded call of `Handle`. -/
structure HandleCall where
  ctx : Context
  message : ConsumerMessage
  mustMark : Bool
  err : Option Error
  deriving DecidableEq, Repr

/-- The calls of `Handle` in a trace, in order. -/
def handleCalls : List Event → List HandleCall
  | [] => []
  | Event.Handle ctx m mm err :: t => ⟨ctx, m, mm, err⟩ :: handleCalls t
  | _ :: t => handleCalls t

/-- The messages marked through `session.MarkMessage` in a trace, in order. -/
def markedOf : List Event → List ConsumerMessage
  | [] => []
  | Event.MarkMessage m :: t => m :: markedOf t
  | _ :: t => markedOf t

/-- The errors sent on the `errors` channel in a trace, in order. -/
def errorsOf : List Event → List Error
  | [] => []
  | Event.ErrorSent e :: t => e :: errorsOf t
  | _ :: t => errorsOf t

/-- The calls of `SetReady` in a trace, in order. -/
def setReadyCalls : List Event → List (Int × Bool)
  | [] => []
  | Event.SetReady p b :: t => (p, b) :: setReadyCalls t
  | _ :: t => setReadyCalls t

/-- The calls of `Handle` and of `SetReady` in a trace, in order, other events dropped. -/
def handleAndReady : List Event → List Event
  | [] => []
  | Event.Handle ctx m mm err :: t => Event.Handle ctx m mm err :: handleAndReady t
  | Event.SetReady p b :: t => Event.SetReady p b :: handleAndReady t
  | _ :: t => handleAndReady t

/-- Modelled from the spec: the `PartitionReadiness` mapping from partition number to
boolean that `SetReady` writes; the implementation of `SetReady` belongs to the user
handler and is not among the sources. -/
abbrev PartitionReadiness := Int → Bool

/-- Modelled from the spec: `PartitionReadiness[partition] = ready`. -/
def PartitionReadiness.set (r : PartitionReadiness) (partition : Int) (ready : Bool) :
    PartitionReadiness :=
  fun q => if q = partition then ready else r q

/-- Modelled from the spec: the readiness mapping after the `SetReady` calls of a trace
have been applied, in order, to the mapping `r`. -/
def readinessAfter (r : PartitionReadiness) : List Event → PartitionReadiness
  | [] => r
  | Event.SetReady p b :: t => readinessAfter (r.set p b) t
  | _ :: t => readinessAfter r t

/-- The claim cut down to its first `k` messages. -/
def ConsumerGroupClaim.firstMessages (claim : ConsumerGroupClaim) (k : Nat) : ConsumerGroupClaim :=
  { claim with Messages := claim.Messages.take k }

/-- The trace of one run of `ConsumeClaim` started where nothing has been called yet. -/
def claimTrace {σ : Type} (consumer : SaramaConsumerHandler σ) (session : ConsumerGroupSession)
    (claim : ConsumerGroupClaim) (s : σ) : List Event :=
  (ConsumeClaim consumer session claim (World.start s)).2.trace

/-- The events one pass through the loop body produces, given what `Handle` returned. -/
def messageEvents (ctx : Context) (p : Int) (m : ConsumerMessage) (mustMark : Bool)
    (err : Option Error) : List Event :=
  [Event.Handle ctx m mustMark err]
    ++ (match err with
        | some e => [Event.ErrorSent e, Event.SetReady p false]
        | none => [])
    ++ (if mustMark then [Event.MarkMessage m] else [])

/-- What the spec says about readiness calls, written over the calls of `Handle`: each
call is followed by `SetReady(p, false)` exactly when it returned an error. -/
def expectedHandleAndReady (p : Int) : List HandleCall → List Event
  | [] => []
  | c :: cs =>
    Event.Handle c.ctx c.message c.mustMark c.err ::
      (if c.err.isSome then Event.SetReady p false :: expectedHandleAndReady p cs
       else expectedHandleAndReady p cs)

/-- All partitions listed in `session.Claims()`, topic after topic. -/
def ConsumerGroupSession.partitions (session : ConsumerGroupSession) : List Int :=
  (session.Claims.map (fun tps => tps.2)).flatten

/-- The state of the handler after the calls recorded in a trace have been made on it, in
order: `SetReady` and `Handle` act on the handler, the other events do not. -/
def replayHandler {σ : Type} (h : KafkaConsumerHandler σ) : List Event → σ → σ
  | [], s => s
  | Event.SetReady p b :: t, s => replayHandler h t (h.SetReady p b s)
  | Event.Handle ctx m _ _ :: t, s => replayHandler h t (h.Handle ctx m s).2
  | _ :: t, s => replayHandler h t s

/-- Every `Handle` event of the trace carries what the handler returns when the calls of
the trace are made on it, in order, from the state `s`. -/
def handlerAgrees {σ : Type} (h : KafkaConsumerHandler σ) : List Event → σ → Prop
  | [], _ => True
  | Event.SetReady p b :: t, s => handlerAgrees h t (h.SetReady p b s)
  | Event.Handle ctx m mm err :: t, s =>
    (h.Handle ctx m s).1 = (mm, err) ∧ handlerAgrees h t (h.Handle ctx m s).2
  | _ :: t, s => handlerAgrees h t s

/-! ## The engine as a transition system

Claim loops run as concurrent goroutines, one per claimed topic and partition; their
steps interleave. A state holds the world and where each claim loop stands. -/

/-- Where a claim loop stands. -/
inductive Phase where
  /-- No `ConsumeClaim` entered since the last `Cleanup` of the claim. -/
  | idle
  /-- Inside `ConsumeClaim`, between entry and return. -/
  | running
  /-- After `ConsumeClaim` returned, `Cleanup` not yet run. -/
  | returned
  deriving DecidableEq, Repr

/-- A claim loop is told apart by the topic and the partition of its claim. -/
abbrev ClaimKey := String × Int

/-- The topic and partition of a claim. -/
def ConsumerGroupClaim.key (claim : ConsumerGroupClaim) : ClaimKey :=
  (claim.Topic, claim.Partition)

/-- All claims listed in `session.Claims()`, as topic and partition. -/
def ConsumerGroupSession.claimKeys (session : ConsumerGroupSession) : List ClaimKey :=
  (session.Claims.map (fun tps => tps.2.map (fun p => (tps.1, p)))).flatten

/-- State of the engine. `phase k` is where the claim loop of `k` stands, `lastFailed k`
tells whether the most recent call of `Handle` made by the claim loop of `k` since its
entry returned an error (`false` when there was none), and `latest p` is the topic of the
claim entered most recently among the claims of partition number `p`. -/
structure EngineState (σ : Type) where
  world : World σ
  phase : ClaimKey → Phase
  lastFailed : ClaimKey → Bool
  latest : Int → Option String

/-- Modelled from the spec: the readiness mapping of a state, every partition not ready
before the first `SetReady`. -/
def EngineState.readiness {σ : Type} (st : EngineState σ) : PartitionReadiness :=
  readinessAfter (fun _ => false) st.world.trace

/-- The engine before anything ran. -/
def EngineState.init {σ : Type} (s : σ) : EngineState σ :=
  ⟨World.start s, fun _ => Phase.idle, fun _ => false, fun _ => none⟩

/-- Steps of the engine. -/
inductive Action where
  /-- Entry of `ConsumeClaim` up to the loop. -/
  | entry (claim : ConsumerGroupClaim)
  /-- One pass through the loop body for a message taken while the session is open. -/
  | message (claim : ConsumerGroupClaim) (message : ConsumerMessage)
  /-- End of the loop (messages exhausted or session closed) and return. -/
  | ret (claim : ConsumerGroupClaim)
  /-- A whole call of `Cleanup`. -/
  | cleanup (session : ConsumerGroupSession)

/-- Pointwise update of a table. -/
def setAt {κ α : Type} [DecidableEq κ] (f : κ → α) (k : κ) (a : α) : κ → α :=
  fun q => if q = k then a else f q

/-- One step; `none` when the step cannot happen in the state. Claims of several topics
may carry the same partition number, and then share one readiness entry. A claim is
entered only when no loop is running for its topic and partition, a message is processed
and a claim returns only inside a running loop, and `Cleanup` runs only when no loop of
the claims of its session is running (sarama calls it once all `ConsumeClaim` goroutines
have exited). -/
def step {σ : Type} (consumer : SaramaConsumerHandler σ) (st : EngineState σ) :
    Action → Option (EngineState σ)
  | Action.entry claim =>
    if st.phase claim.key ≠ Phase.running then
      some ⟨st.world.SetReady consumer.handler claim.Partition true,
        setAt st.phase claim.key Phase.running,
        setAt st.lastFailed claim.key false,
        setAt st.latest claim.Partition (some claim.Topic)⟩
    else none
  | Action.message claim message =>
    if st.phase claim.key = Phase.running then
      let ctx := Context.WithTimeout Context.Background consumer.timeout
      let err := (consumer.handler.Handle ctx message st.world.state).1.2
      some ⟨processMessage consumer claim message st.world, st.phase,
        setAt st.lastFailed claim.key err.isSome, st.latest⟩
    else none
  | Action.ret claim =>
    if st.phase claim.key = Phase.running then
      some ⟨st.world, setAt st.phase claim.key Phase.returned, st.lastFailed, st.latest⟩
    else none
  | Action.cleanup session =>
    if session.claimKeys.all (fun k => decide (st.phase k ≠ Phase.running)) then
      some ⟨(Cleanup consumer session st.world).2,
        fun k => if k ∈ session.claimKeys then Phase.idle else st.phase k,
        st.lastFailed, st.latest⟩
    else none

/-- Run a list of steps from a state. -/
def run {σ : Type} (consumer : SaramaConsumerHandler σ) :
    List Action → EngineState σ → Option (EngineState σ)
  | [], st => some st
  | a :: rest, st =>
    match step consumer st a with
    | some st1 => run consumer rest st1
    | none => none

/-- The states the engine can be in, started on handler state `s`. -/
def Reachable {σ : Type} (consumer : SaramaConsumerHandler σ) (s : σ) (st : EngineState σ) : Prop :=
  ∃ actions, run consumer actions (EngineState.init s) = some st

/-- The readiness invariant of the engine: a partition number is ready only if the claim
entered most recently for it has not been cleaned up since, and the most recent call of
`Handle` of that claim loop, if any, did not fail. -/
def EngineInvariant {σ : Type} (st : EngineState σ) : Prop :=
  ∀ p, st.readiness p = true →
    ∃ t, st.latest p = some t ∧ st.phase (t, p) ≠ Phase.idle ∧ st.lastFailed (t, p) = false

/-- The steps of one undisturbed run of `ConsumeClaim`: entry, one step per message,
return. -/
def claimActions (claim : ConsumerGroupClaim) : List Action :=
  Action.entry claim :: (claim.Messages.map (fun m => Action.message claim m)
    ++ [Action.ret claim])

/-! ## `rate_limiter.go` -/

/-- Struct `rateLimiter`: the wrapped handler. The channel `guard` is mutable and lives
in `LimiterState`. -/
structure rateLimiter (σ : Type) where
  handler : HandleFunc σ

/-- State around a `rateLimiter`: the unbuffered channel `guard` seen from its receiver
(`some v` while the pacing goroutine is blocked in `rl.guard <- v`, `none` while it
sleeps), and the state of the wrapped handler. -/
structure LimiterState (σ : Type) where
  guard : Option Bool
  inner : σ

/-- Go `rateLimiter.Handle`. The receive `<-rl.guard` completes only when a permit is
offered; `none` stands for a call still blocked in it. -/
def rateLimiter.Handle {σ : Type} (rl : rateLimiter σ) (ctx : Context) (msg : ConsumerMessage)
    (st : LimiterState σ) : Option ((Bool × Option Error) × LimiterState σ) :=
  match st.guard with
  | none => none
  | some _ =>
    let r := rl.handler ctx msg st.inner
    some (r.1, ⟨none, r.2⟩)

/-- Go `NewRateLimiter`: the limiter around `handler`, with nothing offered on `guard`
yet. The interval `1.0 / float64(rps)` seconds is the real-time length of the sleep before
each tick; the embedding keeps the order of ticks and calls, not their times. -/
def NewRateLimiter {σ : Type} (_rps : Int) (handler : HandleFunc σ) (s : σ) :
    rateLimiter σ × LimiterState σ :=
  (⟨handler⟩, ⟨none, s⟩)

/-- A limiter at work: its state, the number of ticks fired by the pacing goroutine, and
the number of calls delegated to the wrapped handler. -/
structure PacedState (σ : Type) where
  limiter : LimiterState σ
  ticks : Nat
  calls : Nat

/-- Steps of a limiter at work. -/
inductive LimiterAction where
  /-- The pacing goroutine wakes from `time.Sleep(interval)` and offers `rl.guard <- true`. -/
  | tick
  /-- A call of `Handle` gets through `<-rl.guard` and delegates. -/
  | handle (ctx : Context) (msg : ConsumerMessage)

/-- One step of a limiter at work; `none` when the step cannot happen. The goroutine of
`NewRateLimiter` stays blocked in its send until the permit is received, so it ticks only
when nothing is offered; a call of `Handle` goes on only when `rateLimiter.Handle` does. -/
def limiterStep {σ : Type} (rl : rateLimiter σ) (st : PacedState σ) :
    LimiterAction → Option (PacedState σ)
  | LimiterAction.tick =>
    match st.limiter.guard with
    | none => some ⟨⟨some true, st.limiter.inner⟩, st.ticks + 1, st.calls⟩
    | some _ => none
  | LimiterAction.handle ctx msg =>
    match rl.Handle ctx msg st.limiter with
    | none => none
    | some r => some ⟨r.2, st.ticks, st.calls + 1⟩

/-- Run a list of limiter steps from a state. -/
def limiterRun {σ : Type} (rl : rateLimiter σ) :
    List LimiterAction → PacedState σ → Option (PacedState σ)
  | [], st => some st
  | a :: rest, st =>
    match limiterStep rl st a with
    | some st1 => limiterRun rl rest st1
    | none => none

/-- The states of a limiter built by `NewRateLimiter rps handler` on handler state `s`. -/
def LimiterReachable {σ : Type} (rps : Int) (handler : HandleFunc σ) (s : σ)
    (st : PacedState σ) : Prop :=
  ∃ actions, limiterRun (NewRateLimiter rps handler s).1 actions
    ⟨(NewRateLimiter rps handler s).2, 0, 0⟩ = some st

/-! ## `placement.go` -/

/-- Modelled from the spec: the type `duckv1alpha1.Placement`, whose declaration is not
among the sources: pod identity, owning-entity identity, replica count (`int32`). -/
structure Placement where
  PodName : String
  Owner : String
  Replicas : Int
  deriving DecidableEq, Repr

/-- The `int32` value of an integer: reduction modulo 2^32 into [-2^31, 2^31). -/
def wrapInt32 (x : Int) : Int :=
  (x + 2147483648) % 4294967296 - 2147483648

/-- The loop `for _, p := range placements { r += p.Replicas }` on `int32`. -/
def GetTotalReplicas.loop : List Placement → Int → Int
  | [], r => r
  | p :: rest, r => GetTotalReplicas.loop rest (wrapInt32 (r + p.Replicas))

/-- Go `GetTotalReplicas`. -/
def GetTotalReplicas (placements : List Placement) : Int :=
  GetTotalReplicas.loop placements 0

/-- The loop `for i := 0; i < len(placements); i++` of `GetPlacementForPod`, over the
entries from index `i` on. -/
def GetPlacementForPod.loop (podName : String) : List Placement → Nat → Option Nat
  | [], _ => none
  | p :: rest, i =>
    if p.PodName = podName then some i else GetPlacementForPod.loop podName rest (i + 1)

/-- Result of `GetPlacementForPod`: the slice contents after the call, and the returned
pointer `&placements[i]` as the index `i` (`none` for `nil`). -/
structure LookupResult where
  placements : List Placement
  pointer : Option Nat
  deriving DecidableEq, Repr

/-- Go `GetPlacementForPod`. The function assigns to no entry. -/
def GetPlacementForPod (placements : List Placement) (podName : String) : LookupResult :=
  ⟨placements, GetPlacementForPod.loop podName placements 0⟩

/-- The entry a returned pointer points to. -/
def LookupResult.entry (r : LookupResult) : Option Placement :=
  match r.pointer with
  | none => none
  | some i => r.placements[i]?

/-! ### Slices in memory

`CopyPlacements` is about aliasing, so its embedding keeps the backing arrays of
`[]Placement` slices in an explicit memory. -/

/-- The zero value of `Placement`, with which `make` fills a new array. -/
def Placement.zero : Placement := ⟨"", "", 0⟩

/-- The memory of backing arrays of `[]Placement` slices; the address of an array is its
position in `arrays`. -/
structure PlacementHeap where
  arrays : List (List Placement)
  deriving DecidableEq, Repr

/-- The array at an address (empty where nothing is allocated). -/
def PlacementHeap.arrayAt (h : PlacementHeap) (a : Nat) : List Placement :=
  h.arrays[a]?.getD []

/-- A slice header: backing array, offset into it, length (`nil` is any header of
length 0). -/
structure PlacementSlice where
  array : Nat
  off : Nat
  len : Nat
  deriving DecidableEq, Repr

/-- The slice lies inside its backing array. -/
def PlacementSlice.InBounds (s : PlacementSlice) (h : PlacementHeap) : Prop :=
  s.off + s.len ≤ (h.arrayAt s.array).length

/-- The entries of a slice, in order. -/
def PlacementSlice.contents (s : PlacementSlice) (h : PlacementHeap) : List Placement :=
  ((h.arrayAt s.array).drop s.off).take s.len

/-- Go `s[i]` as a value; `none` is the index-out-of-range panic. -/
def PlacementSlice.index (s : PlacementSlice) (h : PlacementHeap) (i : Nat) : Option Placement :=
  if i < s.len then (h.arrayAt s.array)[s.off + i]? else none

/-- Go `s[i] = v`; `none` is the index-out-of-range panic. -/
def PlacementSlice.assign (s : PlacementSlice) (h : PlacementHeap) (i : Nat) (v : Placement) :
    Option PlacementHeap :=
  if i < s.len ∧ s.off + i < (h.arrayAt s.array).length then
    some ⟨h.arrays.set s.array ((h.arrayAt s.array).set (s.off + i) v)⟩
  else none

/-- Go `make([]duckv1alpha1.Placement, n)`: a new array of `n` zero values at a fresh
address, and the slice over all of it. -/
def makePlacements (h : PlacementHeap) (n : Nat) : PlacementHeap × PlacementSlice :=
  (⟨h.arrays ++ [List.replicate n Placement.zero]⟩, ⟨h.arrays.length, 0, n⟩)

/-- The loop `for i, p := range placements { result[i] = p }` of `CopyPlacements`, from
index `i` on, with `k` entries still to go. -/
def CopyPlacements.loop (placements result : PlacementSlice) :
    Nat → Nat → PlacementHeap → Option PlacementHeap
  | 0, _, h => some h
  | k + 1, i, h =>
    match placements.index h i with
    | none => none
    | some p =>
      match result.assign h i p with
      | none => none
      | some h1 => CopyPlacements.loop placements result k (i + 1) h1

/-- Go `CopyPlacements`: the memory after the call and the returned slice. -/
def CopyPlacements (h : PlacementHeap) (placements : PlacementSlice) :
    Option (PlacementHeap × PlacementSlice) :=
  match CopyPlacements.loop placements (makePlacements h placements.len).2 placements.len 0
      (makePlacements h placements.len).1 with
  | none => none
  | some h1 => some (h1, (makePlacements h placements.len).2)

/-! ## `kafka_channel_defaults.go` -/

/-- A Go `map[string]string` that is not `nil`. -/
abbrev StringMap := String → Option String

/-- Go `make(map[string]string)`. -/
def StringMap.empty : StringMap := fun _ => none

/-- Go `m[key] = value`. -/
def StringMap.insert (m : StringMap) (key value : String) : StringMap :=
  fun k => if k = key then some value else m k

/-- The constant `messaging.SubscribableDuckVersionAnnotation` of knative.dev/eventing, with
the value the test of `SetDefaults` expects. -/
def SubscribableDuckVersionAnnotation : String := "messaging.knative.dev/subscribable"

/-- The constant `duckv1.BackoffPolicyExponential` of knative.dev/eventing. -/
def BackoffPolicyExponential : String := "exponential"

/-- The constants `DefaultNumPartitions` and `DefaultReplicationFactor` of the package
`pkg/common/constants`, which is not among the sources: taken as parameters. -/
structure Constants where
  DefaultNumPartitions : Int
  DefaultReplicationFactor : Int
  deriving DecidableEq, Repr

/-- The type `duckv1.DeliverySpec` of knative.dev/eventing: the three fields `SetDefaults`
writes and the dead letter sink (reduced to a string); a pointer is an `Option`. -/
structure DeliverySpec where
  DeadLetterSink : Option String
  Retry : Option Int
  BackoffPolicy : Option String
  BackoffDelay : Option String
  deriving DecidableEq, Repr

/-- The type `KafkaChannelSpec`, declared outside the sources, with the fields that
`SetDefaults` and its test use; `Delivery` is the field of the embedded
`duckv1.ChannelableSpec`. -/
structure KafkaChannelSpec where
  NumPartitions : Int
  ReplicationFactor : Int
  Delivery : Option DeliverySpec
  deriving DecidableEq, Repr

/-- The type `KafkaChannel`, declared outside the sources, with the fields that
`SetDefaults` and its test use; `Annotations` is `none` for a `nil` map. -/
structure KafkaChannel where
  Annotations : Option StringMap
  Spec : KafkaChannelSpec

/-- Go `(*KafkaChannelSpec).SetDefaults`. -/
def KafkaChannelSpec.SetDefaults (constants : Constants) (cs : KafkaChannelSpec)
    (_ctx : Context) : KafkaChannelSpec :=
  let numPartitions :=
    if cs.NumPartitions = 0 then constants.DefaultNumPartitions else cs.NumPartitions
  let replicationFactor :=
    if cs.ReplicationFactor = 0 then constants.DefaultReplicationFactor else cs.ReplicationFactor
  let delivery : DeliverySpec :=
    match cs.Delivery with
    | none => ⟨none, none, none, none⟩
    | some d => d
  let delivery : DeliverySpec :=
    match delivery.Retry with
    | none =>
      { delivery with
        Retry := some 10
        BackoffPolicy := some BackoffPolicyExponential
        BackoffDelay := some "PT0.1S" }
    | some _ => delivery
  ⟨numPartitions, replicationFactor, some delivery⟩

/-- Go `(*KafkaChannel).SetDefaults`. -/
def KafkaChannel.SetDefaults (constants : Constants) (c : KafkaChannel) (ctx : Context) :
    KafkaChannel :=
  let annotations : StringMap :=
    match c.Annotations with
    | none => StringMap.empty
    | some m => m
  let annotations : StringMap :=
    match annotations SubscribableDuckVersionAnnotation with
    | some _ => annotations
    | none => annotations.insert SubscribableDuckVersionAnnotation "v1"
  ⟨some annotations, c.Spec.SetDefaults constants ctx⟩

/-- The value of an annotation of a channel (`none` when the map is `nil` or has no such
key). -/
def KafkaChannel.annotationOf (c : KafkaChannel) (key : String) : Option String :=
  match c.Annotations with
  | none => none
  | some m => m key

/-- The retry count of a delivery pointer (`none` when the pointer or the count is `nil`). -/
def retryOf (delivery : Option DeliverySpec) : Option Int :=
  match delivery with
  | none => none
  | some d => d.Retry

/-- The dead letter sink of a delivery pointer. -/
def deadLetterSinkOf (delivery : Option DeliverySpec) : Option String :=
  match delivery with
  | none => none
  | some d => d.DeadLetterSink

/-! ## Concrete inputs -/

/-- A message of topic `"topic"`, partition 0, with the given offset. -/
def exampleMessage (offset : Int) : ConsumerMessage :=
  ⟨"topic", 0, offset, [], []⟩

/-- A handler that counts its calls, asks for every message to be marked and never fails. -/
def markAllHandler : KafkaConsumerHandler Nat where
  Handle := fun _ _ n => ((true, none), n + 1)
  SetReady := fun _ _ n => n
  GetConsumerGroup := fun _ => "group"

/-- A handler that counts its calls and returns `(false, "failed")` on the messages of odd
offset, `(true, nil)` on the others. -/
def oddFailsHandler : KafkaConsumerHandler Nat where
  Handle := fun _ m n =>
    if m.Offset % 2 = 1 then ((false, some "failed"), n + 1) else ((true, none), n + 1)
  SetReady := fun _ _ n => n
  GetConsumerGroup := fun _ => "group"

/-- A session owning partition 0 of `"topic"` that is never found closed. -/
def openSession : ConsumerGroupSession :=
  ⟨[("topic", [0])], fun _ => false⟩

/-- A session owning partition 0 of `"topic"` that is found closed from the check made
for position `k` on. -/
def sessionClosedFrom (k : Nat) : ConsumerGroupSession :=
  ⟨[("topic", [0])], fun j => decide (k ≤ j)⟩

/-- A claim on partition 0 with the messages of offsets 0, 1 and 2. -/
def exampleClaim : ConsumerGroupClaim :=
  ⟨"topic", 0, 0, [exampleMessage 0, exampleMessage 1, exampleMessage 2]⟩

/-- A session claiming partitions 0 and 1 of `"topic"` and partition 2 of `"other"`. -/
def exampleCleanupSession : ConsumerGroupSession :=
  ⟨[("topic", [0, 1]), ("other", [2])], fun _ => false⟩

/-- A wrapped handler that records the context and the message of each call in its
state and returns `result ctx msg`. -/
def recordingHandler (result : Context → ConsumerMessage → Bool × Option Error) :
    HandleFunc (List (Context × ConsumerMessage)) :=
  fun ctx msg log => (result ctx msg, log ++ [(ctx, msg)])

/-- Three placements, two of them on pod `"a"`. -/
def examplePlacements : List Placement :=
  [⟨"b", "source", 2⟩, ⟨"a", "source", 1⟩, ⟨"a", "source", 5⟩]

/-- A memory with one array, the three example placements. -/
def exampleHeap : PlacementHeap := ⟨[examplePlacements]⟩

/-- Values for the two default constants: 4 partitions, replication factor 3. -/
def exampleConstants : Constants := ⟨4, 3⟩

/-- A delivery without retry count whose backoff fields and dead letter sink are set. -/
def exampleDelivery : DeliverySpec :=
  ⟨some "dead-letters", none, some "linear", some "PT1S"⟩

/-- A handler whose state is the readiness mapping itself: `SetReady` writes it, and
`Handle` returns `(false, "failed")` on the messages of odd offset, `(true, nil)` on the
others. -/
def readinessHandler : KafkaConsumerHandler PartitionReadiness where
  Handle := fun _ m r =>
    if m.Offset % 2 = 1 then ((false, some "failed"), r) else ((true, none), r)
  SetReady := fun p b r => r.set p b
  GetConsumerGroup := fun _ => "group"

/-- A claim on partition 0 of the topic `"other"` without messages. -/
def otherClaim : ConsumerGroupClaim :=
  ⟨"other", 0, 0, []⟩

/-! ## Lemmas on traces -/

theorem handleCalls_append (a b : List Event) :
    handleCalls (a ++ b) = handleCalls a ++ handleCalls b := by
  induction a with
  | nil => rfl
  | cons e t ih => cases e <;> simp [handleCalls, ih]

theorem markedOf_append (a b : List Event) :
    markedOf (a ++ b) = markedOf a ++ markedOf b := by
  induction a with
  | nil => rfl
  | cons e t ih => cases e <;> simp [markedOf, ih]

theorem errorsOf_append (a b : List Event) :
    errorsOf (a ++ b) = errorsOf a ++ errorsOf b := by
  induction a with
  | nil => rfl
  | cons e t ih => cases e <;> simp [errorsOf, ih]

theorem setReadyCalls_append (a b : List Event) :
    setReadyCalls (a ++ b) = setReadyCalls a ++ setReadyCalls b := by
  induction a with
  | nil => rfl
  | cons e t ih => cases e <;> simp [setReadyCalls, ih]

theorem handleAndReady_append (a b : List Event) :
    handleAndReady (a ++ b) = handleAndReady a ++ handleAndReady b := by
  induction a with
  | nil => rfl
  | cons e t ih => cases e <;> simp [handleAndReady, ih]

theorem readinessAfter_append (r : PartitionReadiness) (a b : List Event) :
    readinessAfter r (a ++ b) = readinessAfter (readinessAfter r a) b := by
  induction a generalizing r with
  | nil => rfl
  | cons e t ih => cases e <;> simp [readinessAfter, ih]

theorem expectedHandleAndReady_append (p : Int) (a b : List HandleCall) :
    expectedHandleAndReady p (a ++ b)
      = expectedHandleAndReady p a ++ expectedHandleAndReady p b := by
  induction a with
  | nil => rfl
  | cons c t ih =>
    by_cases h : c.err.isSome <;> simp [expectedHandleAndReady, ih, h]

/-- The loop body appends exactly the events of one message. -/
theorem processMessage_trace {σ : Type} (consumer : SaramaConsumerHandler σ)
    (claim : ConsumerGroupClaim) (m : ConsumerMessage) (w : World σ) :
    (processMessage consumer claim m w).trace
      = w.trace ++ messageEvents (Context.WithTimeout Context.Background consumer.timeout)
          claim.Partition m
          (consumer.handler.Handle (Context.WithTimeout Context.Background consumer.timeout)
            m w.state).1.1
          (consumer.handler.Handle (Context.WithTimeout Context.Background consumer.timeout)
            m w.state).1.2 := by
  unfold processMessage messageEvents
  cases h1 : (consumer.handler.Handle (Context.WithTimeout Context.Background consumer.timeout)
      m w.state).1.2 <;>
    cases h2 : (consumer.handler.Handle (Context.WithTimeout Context.Background consumer.timeout)
      m w.state).1.1 <;>
    simp [World.SendError, World.SetReady, World.MarkMessage, h1, h2]

/-- A property of worlds kept by the loop body is kept by the loop. -/
theorem consumeLoop_preserves {σ : Type} (consumer : SaramaConsumerHandler σ)
    (session : ConsumerGroupSession) (claim : ConsumerGroupClaim) (P : World σ → Prop)
    (hstep : ∀ m w, P w → P (processMessage consumer claim m w)) :
    ∀ (msgs : List ConsumerMessage) (k : Nat) (w : World σ), P w →
      P (consumeLoop consumer session claim k msgs w) := by
  intro msgs
  induction msgs with
  | nil => intro k w hw; simpa [consumeLoop] using hw
  | cons m rest ih =>
    intro k w hw
    unfold consumeLoop
    split
    · exact hw
    · exact ih (k + 1) _ (hstep m w hw)

/-- The loop only appends to the trace, and what it appends for a claim cut short is
the beginning of what it appends for the whole claim. -/
theorem consumeLoop_extends {σ : Type} (consumer : SaramaConsumerHandler σ)
    (session : ConsumerGroupSession) (claim : ConsumerGroupClaim) :
    ∀ (l1 l2 : List ConsumerMessage) (k : Nat) (w : World σ),
      ∃ ext, (consumeLoop consumer session claim k (l1 ++ l2) w).trace
        = (consumeLoop consumer session claim k l1 w).trace ++ ext := by
  intro l1
  induction l1 with
  | nil =>
    intro l2 k w
    have h := consumeLoop_preserves consumer session claim
      (fun v => ∃ ext, v.trace = w.trace ++ ext)
      (fun m v hv => by
        obtain ⟨e, he⟩ := hv
        exact ⟨e ++ _, by rw [processMessage_trace, he, List.append_assoc]⟩)
      l2 k w ⟨[], by simp⟩
    simpa [consumeLoop] using h
  | cons m rest ih =>
    intro l2 k w
    simp only [List.cons_append, consumeLoop]
    split
    · exact ⟨[], by simp⟩
    · exact ih l2 (k + 1) _

/-- While the session stays open the loop calls the handler on every message, in order. -/
theorem consumeLoop_open_calls {σ : Type} (consumer : SaramaConsumerHandler σ)
    (session : ConsumerGroupSession) (claim : ConsumerGroupClaim) :
    ∀ (msgs : List ConsumerMessage) (k : Nat) (w : World σ),
      (∀ j, j < msgs.length → session.Done (k + j) = false) →
      (handleCalls (consumeLoop consumer session claim k msgs w).trace).map (fun c => c.message)
        = (handleCalls w.trace).map (fun c => c.message) ++ msgs := by
  intro msgs
  induction msgs with
  | nil => intro k w _; simp [consumeLoop]
  | cons m rest ih =>
    intro k w hopen
    have h0 : session.Done k = false := by simpa using hopen 0 (by simp)
    have hrest : ∀ j, j < rest.length → session.Done (k + 1 + j) = false := by
      intro j hj
      have := hopen (j + 1) (by simpa using hj)
      simpa [Nat.add_assoc, Nat.add_comm 1 j] using this
    simp only [consumeLoop, sessionClosed, h0]
    rw [if_neg (by simp), ih (k + 1) _ hrest, processMessage_trace, handleCalls_append]
    simp [messageEvents, handleCalls_append, handleCalls]
    cases (consumer.handler.Handle (Context.WithTimeout Context.Background consumer.timeout)
      m w.state).1.2 <;>
    cases (consumer.handler.Handle (Context.WithTimeout Context.Background consumer.timeout)
      m w.state).1.1 <;> simp [handleCalls]

/-- Whatever the session does, the messages the loop hands to the handler are the first
`n` messages of the claim, for some `n`. -/
theorem consumeLoop_calls_take {σ : Type} (consumer : SaramaConsumerHandler σ)
    (session : ConsumerGroupSession) (claim : ConsumerGroupClaim) :
    ∀ (msgs : List ConsumerMessage) (k : Nat) (w : World σ),
      ∃ n, n ≤ msgs.length ∧
        (handleCalls (consumeLoop consumer session claim k msgs w).trace).map (fun c => c.message)
          = (handleCalls w.trace).map (fun c => c.message) ++ msgs.take n := by
  intro msgs
  induction msgs with
  | nil => intro k w; exact ⟨0, by simp, by simp [consumeLoop]⟩
  | cons m rest ih =>
    intro k w
    unfold consumeLoop
    split
    · exact ⟨0, by simp, by simp⟩
    · obtain ⟨n, hn, h⟩ := ih (k + 1) (processMessage consumer claim m w)
      refine ⟨n + 1, by simpa using hn, ?_⟩
      rw [h, processMessage_trace, handleCalls_append]
      simp [messageEvents, handleCalls_append, handleCalls]
      cases (consumer.handler.Handle (Context.WithTimeout Context.Background consumer.timeout)
        m w.state).1.2 <;>
      cases (consumer.handler.Handle (Context.WithTimeout Context.Background consumer.timeout)
        m w.state).1.1 <;> simp [handleCalls]

/-! ## Events of one message -/

theorem handleCalls_messageEvents (ctx : Context) (p : Int) (m : ConsumerMessage) (mm : Bool)
    (err : Option Error) :
    handleCalls (messageEvents ctx p m mm err) = [⟨ctx, m, mm, err⟩] := by
  cases err <;> cases mm <;> simp [messageEvents, handleCalls]

theorem markedOf_messageEvents (ctx : Context) (p : Int) (m : ConsumerMessage) (mm : Bool)
    (err : Option Error) :
    markedOf (messageEvents ctx p m mm err) = if mm then [m] else [] := by
  cases err <;> cases mm <;> simp [messageEvents, markedOf]

theorem errorsOf_messageEvents (ctx : Context) (p : Int) (m : ConsumerMessage) (mm : Bool)
    (err : Option Error) :
    errorsOf (messageEvents ctx p m mm err) = err.toList := by
  cases err <;> cases mm <;> simp [messageEvents, errorsOf]

theorem handleAndReady_messageEvents (ctx : Context) (p : Int) (m : ConsumerMessage) (mm : Bool)
    (err : Option Error) :
    handleAndReady (messageEvents ctx p m mm err)
      = expectedHandleAndReady p [⟨ctx, m, mm, err⟩] := by
  cases err <;> cases mm <;> simp [messageEvents, handleAndReady, expectedHandleAndReady]

theorem readinessAfter_messageEvents (r : PartitionReadiness) (ctx : Context) (p : Int)
    (m : ConsumerMessage) (mm : Bool) (err : Option Error) :
    readinessAfter r (messageEvents ctx p m mm err)
      = if err.isSome then r.set p false else r := by
  cases err <;> cases mm <;> simp [messageEvents, readinessAfter]

/-! ## Facts that hold of every run of `ConsumeClaim` -/

/-- A property of traces that holds after the entry `SetReady` and is kept by the events
of one message holds of the trace of `ConsumeClaim`. -/
theorem claimTrace_induct {σ : Type} (consumer : SaramaConsumerHandler σ)
    (session : ConsumerGroupSession) (claim : ConsumerGroupClaim) (s : σ)
    (P : List Event → Prop) (h0 : P [Event.SetReady claim.Partition true])
    (hstep : ∀ t m mm err s1,
      (consumer.handler.Handle (Context.WithTimeout Context.Background consumer.timeout)
        m s1).1 = (mm, err) →
      P t → P (t ++ messageEvents (Context.WithTimeout Context.Background consumer.timeout)
        claim.Partition m mm err)) :
    P (claimTrace consumer session claim s) := by
  unfold claimTrace ConsumeClaim
  apply consumeLoop_preserves consumer session claim (fun w => P w.trace)
  · intro m w hw
    show P (processMessage consumer claim m w).trace
    rw [processMessage_trace]
    exact hstep _ m _ _ w.state rfl hw
  · simpa [World.SetReady, World.start] using h0

/-- The marked messages are those of the calls of `Handle` that returned `mustMark`. -/
theorem claimTrace_marked {σ : Type} (consumer : SaramaConsumerHandler σ)
    (session : ConsumerGroupSession) (claim : ConsumerGroupClaim) (s : σ) :
    markedOf (claimTrace consumer session claim s)
      = ((handleCalls (claimTrace consumer session claim s)).filter
          (fun c => c.mustMark)).map (fun c => c.message) := by
  apply claimTrace_induct consumer session claim s
    (fun t => markedOf t = ((handleCalls t).filter (fun c => c.mustMark)).map (fun c => c.message))
  · simp [markedOf, handleCalls]
  · intro t m mm err s1 _ ht
    simp only [markedOf_append, handleCalls_append, markedOf_messageEvents,
      handleCalls_messageEvents, List.filter_append, List.map_append, ht]
    cases mm <;> simp

/-- The errors sent are the errors returned by the calls of `Handle`. -/
theorem claimTrace_errors {σ : Type} (consumer : SaramaConsumerHandler σ)
    (session : ConsumerGroupSession) (claim : ConsumerGroupClaim) (s : σ) :
    errorsOf (claimTrace consumer session claim s)
      = (handleCalls (claimTrace consumer session claim s)).filterMap (fun c => c.err) := by
  apply claimTrace_induct consumer session claim s
    (fun t => errorsOf t = (handleCalls t).filterMap (fun c => c.err))
  · simp [errorsOf, handleCalls]
  · intro t m mm err s1 _ ht
    simp only [errorsOf_append, handleCalls_append, errorsOf_messageEvents,
      handleCalls_messageEvents, List.filterMap_append, ht]
    cases err <;> simp

/-- Every recorded call carries what the handler returns for its message, when that
depends on the message only. -/
theorem claimTrace_calls_of_fun {σ : Type} (consumer : SaramaConsumerHandler σ)
    (session : ConsumerGroupSession) (claim : ConsumerGroupClaim) (s : σ)
    (f : ConsumerMessage → Bool × Option Error)
    (hf : ∀ ctx m s1, (consumer.handler.Handle ctx m s1).1 = f m) :
    ∀ c ∈ handleCalls (claimTrace consumer session claim s), (c.mustMark, c.err) = f c.message := by
  apply claimTrace_induct consumer session claim s
    (fun t => ∀ c ∈ handleCalls t, (c.mustMark, c.err) = f c.message)
  · simp [handleCalls]
  · intro t m mm err s1 hr ht c hc
    rw [handleCalls_append, handleCalls_messageEvents, List.mem_append] at hc
    rcases hc with hc | hc
    · exact ht c hc
    · rw [List.mem_singleton] at hc
      subst hc
      rw [← hr]
      exact hf _ _ _

/-- The messages handed to the handler are the first `n` messages of the claim. -/
theorem claimTrace_calls_take {σ : Type} (consumer : SaramaConsumerHandler σ)
    (session : ConsumerGroupSession) (claim : ConsumerGroupClaim) (s : σ) :
    ∃ n, n ≤ claim.Messages.length ∧
      (handleCalls (claimTrace consumer session claim s)).map (fun c => c.message)
        = claim.Messages.take n := by
  obtain ⟨n, hn, h⟩ := consumeLoop_calls_take consumer session claim claim.Messages 0
    ((World.start s).SetReady consumer.handler claim.Partition true)
  exact ⟨n, hn, by simpa [claimTrace, ConsumeClaim, World.SetReady, World.start, handleCalls] using h⟩

/-- With the session open throughout, every message of the claim is handed to the handler. -/
theorem claimTrace_calls_open {σ : Type} (consumer : SaramaConsumerHandler σ)
    (session : ConsumerGroupSession) (claim : ConsumerGroupClaim) (s : σ)
    (hopen : ∀ k, k < claim.Messages.length → session.Done k = false) :
    (handleCalls (claimTrace consumer session claim s)).map (fun c => c.message)
      = claim.Messages := by
  have h := consumeLoop_open_calls consumer session claim claim.Messages 0
    ((World.start s).SetReady consumer.handler claim.Partition true)
    (by intro j hj; simpa using hopen j hj)
  simpa [claimTrace, ConsumeClaim, World.SetReady, World.start, handleCalls] using h

/-- Marked messages when the handler result depends on the message only. -/
theorem claimTrace_marked_of_fun {σ : Type} (consumer : SaramaConsumerHandler σ)
    (session : ConsumerGroupSession) (claim : ConsumerGroupClaim) (s : σ)
    (f : ConsumerMessage → Bool × Option Error)
    (hf : ∀ ctx m s1, (consumer.handler.Handle ctx m s1).1 = f m) :
    markedOf (claimTrace consumer session claim s)
      = ((handleCalls (claimTrace consumer session claim s)).map (fun c => c.message)).filter
          (fun m => (f m).1) := by
  rw [claimTrace_marked, List.filter_map]
  congr 1
  apply List.filter_congr
  intro c hc
  have := claimTrace_calls_of_fun consumer session claim s f hf c hc
  simp [← this]

/-- Errors sent when the handler result depends on the message only. -/
theorem claimTrace_errors_of_fun {σ : Type} (consumer : SaramaConsumerHandler σ)
    (session : ConsumerGroupSession) (claim : ConsumerGroupClaim) (s : σ)
    (f : ConsumerMessage → Bool × Option Error)
    (hf : ∀ ctx m s1, (consumer.handler.Handle ctx m s1).1 = f m) :
    errorsOf (claimTrace consumer session claim s)
      = ((handleCalls (claimTrace consumer session claim s)).map (fun c => c.message)).filterMap
          (fun m => (f m).2) := by
  rw [claimTrace_errors, List.filterMap_map]
  have h := claimTrace_calls_of_fun consumer session claim s f hf
  generalize handleCalls (claimTrace consumer session claim s) = cs at h
  induction cs with
  | nil => rfl
  | cons c t ih =>
    have hc := h c (by simp)
    have ht := ih (fun d hd => h d (by simp [hd]))
    simp only [List.filterMap_cons, Function.comp, ht, ← hc]

/-- The loop body reads the claim only through its partition. -/
theorem processMessage_congr {σ : Type} (consumer : SaramaConsumerHandler σ)
    (c1 c2 : ConsumerGroupClaim) (h : c1.Partition = c2.Partition) (m : ConsumerMessage)
    (w : World σ) : processMessage consumer c1 m w = processMessage consumer c2 m w := by
  unfold processMessage
  rw [h]

theorem consumeLoop_congr {σ : Type} (consumer : SaramaConsumerHandler σ)
    (session : ConsumerGroupSession) (c1 c2 : ConsumerGroupClaim)
    (h : c1.Partition = c2.Partition) :
    ∀ (msgs : List ConsumerMessage) (k : Nat) (w : World σ),
      consumeLoop consumer session c1 k msgs w = consumeLoop consumer session c2 k msgs w := by
  intro msgs
  induction msgs with
  | nil => intro k w; simp [consumeLoop]
  | cons m rest ih =>
    intro k w
    simp only [consumeLoop, processMessage_congr consumer c1 c2 h, ih]

/-- The loop stops at the first message for which the session is found closed: what
comes from that message on is not looked at. -/
theorem consumeLoop_break {σ : Type} (consumer : SaramaConsumerHandler σ)
    (session : ConsumerGroupSession) (claim : ConsumerGroupClaim) :
    ∀ (l1 l2 : List ConsumerMessage) (k : Nat) (w : World σ),
      (∀ j, j < l1.length → session.Done (k + j) = false) →
      session.Done (k + l1.length) = true →
      consumeLoop consumer session claim k (l1 ++ l2) w
        = consumeLoop consumer session claim k l1 w := by
  intro l1
  induction l1 with
  | nil =>
    intro l2 k w _ hclosed
    cases l2 with
    | nil => rfl
    | cons m rest =>
      have hc : session.Done k = true := by simpa using hclosed
      simp [consumeLoop, sessionClosed, hc]
  | cons m rest ih =>
    intro l2 k w hopen hclosed
    have h0 : session.Done k = false := by simpa using hopen 0 (by simp)
    have hrest : ∀ j, j < rest.length → session.Done (k + 1 + j) = false := by
      intro j hj
      have := hopen (j + 1) (by simpa using hj)
      simpa [Nat.add_assoc, Nat.add_comm 1 j] using this
    have hcl : session.Done (k + 1 + rest.length) = true := by
      simpa [Nat.add_assoc, Nat.add_comm 1 rest.length] using hclosed
    simp only [List.cons_append, consumeLoop, sessionClosed, h0]
    rw [if_neg (by simp), if_neg (by simp)]
    exact ih l2 (k + 1) _ hrest hcl

/-- The run on the claim cut at the first closed check is the run on the claim. -/
theorem ConsumeClaim_cut {σ : Type} (consumer : SaramaConsumerHandler σ)
    (session : ConsumerGroupSession) (claim : ConsumerGroupClaim) (w : World σ) (k : Nat)
    (hk : k < claim.Messages.length) (hclosed : session.Done k = true)
    (hbefore : ∀ j, j < k → session.Done j = false) :
    ConsumeClaim consumer session claim w
      = ConsumeClaim consumer session (claim.firstMessages k) w := by
  have hlen : (claim.Messages.take k).length = k := by
    rw [List.length_take]; omega
  have h := consumeLoop_break consumer session claim (claim.Messages.take k)
    (claim.Messages.drop k) 0 (w.SetReady consumer.handler claim.Partition true)
    (by intro j hj; rw [hlen] at hj; simpa using hbefore j hj)
    (by rw [hlen]; simpa using hclosed)
  rw [List.take_append_drop] at h
  simp only [ConsumeClaim]
  rw [h, consumeLoop_congr consumer session claim (claim.firstMessages k) rfl]
  rfl

/-- The trace of the claim cut to `j` messages begins the trace of the claim cut to `k`
messages, for `j ≤ k`. -/
theorem claimTrace_firstMessages_extends {σ : Type} (consumer : SaramaConsumerHandler σ)
    (session : ConsumerGroupSession) (claim : ConsumerGroupClaim) (s : σ) (j k : Nat)
    (hjk : j ≤ k) :
    ∃ ext, claimTrace consumer session (claim.firstMessages k) s
      = claimTrace consumer session (claim.firstMessages j) s ++ ext := by
  have hsplit : claim.Messages.take k
      = claim.Messages.take j ++ (claim.Messages.take k).drop j := by
    have h := List.take_append_drop j (claim.Messages.take k)
    rw [List.take_take, Nat.min_eq_left hjk] at h
    exact h.symm
  obtain ⟨ext, h⟩ := consumeLoop_extends consumer session claim (claim.Messages.take j)
    ((claim.Messages.take k).drop j) 0
    ((World.start s).SetReady consumer.handler claim.Partition true)
  rw [← hsplit] at h
  refine ⟨ext, ?_⟩
  simp only [claimTrace, ConsumeClaim]
  rw [consumeLoop_congr consumer session (claim.firstMessages k) claim rfl,
    consumeLoop_congr consumer session (claim.firstMessages j) claim rfl]
  exact h

/-- In the trace of `ConsumeClaim` the calls of `SetReady` are the one at entry and one
`SetReady(p, false)` right after each call of `Handle` that returned an error. -/
theorem claimTrace_handleAndReady {σ : Type} (consumer : SaramaConsumerHandler σ)
    (session : ConsumerGroupSession) (claim : ConsumerGroupClaim) (s : σ) :
    handleAndReady (claimTrace consumer session claim s)
      = Event.SetReady claim.Partition true ::
          expectedHandleAndReady claim.Partition
            (handleCalls (claimTrace consumer session claim s)) := by
  apply claimTrace_induct consumer session claim s
    (fun t => handleAndReady t
      = Event.SetReady claim.Partition true :: expectedHandleAndReady claim.Partition (handleCalls t))
  · simp [handleAndReady, handleCalls, expectedHandleAndReady]
  · intro t m mm err s1 _ ht
    rw [handleAndReady_append, handleCalls_append, expectedHandleAndReady_append, ht,
      handleAndReady_messageEvents, handleCalls_messageEvents]
    simp

/-- The calls of `SetReady` of a run: `(p, true)` once, then `(p, false)` once per call
of `Handle` that returned an error. -/
theorem claimTrace_setReadyCalls {σ : Type} (consumer : SaramaConsumerHandler σ)
    (session : ConsumerGroupSession) (claim : ConsumerGroupClaim) (s : σ) :
    setReadyCalls (claimTrace consumer session claim s)
      = (claim.Partition, true) ::
          List.replicate
            ((handleCalls (claimTrace consumer session claim s)).filter
              (fun c => c.err.isSome)).length
            (claim.Partition, false) := by
  apply claimTrace_induct consumer session claim s
    (fun t => setReadyCalls t
      = (claim.Partition, true) ::
          List.replicate ((handleCalls t).filter (fun c => c.err.isSome)).length
            (claim.Partition, false))
  · simp [setReadyCalls, handleCalls]
  · intro t m mm err s1 _ ht
    rw [setReadyCalls_append, handleCalls_append, handleCalls_messageEvents, ht,
      List.filter_append, List.length_append]
    cases err <;> cases mm <;>
      simp [messageEvents, setReadyCalls, List.replicate_succ', List.replicate_add]

/-- After a run, the partition of the claim is ready exactly when no call of `Handle`
returned an error. -/
theorem claimTrace_readiness {σ : Type} (consumer : SaramaConsumerHandler σ)
    (session : ConsumerGroupSession) (claim : ConsumerGroupClaim) (s : σ)
    (r0 : PartitionReadiness) :
    readinessAfter r0 (claimTrace consumer session claim s) claim.Partition = true
      ↔ ∀ c ∈ handleCalls (claimTrace consumer session claim s), c.err = none := by
  apply claimTrace_induct consumer session claim s
    (fun t => readinessAfter r0 t claim.Partition = true ↔ ∀ c ∈ handleCalls t, c.err = none)
  · simp [readinessAfter, handleCalls, PartitionReadiness.set]
  · intro t m mm err s1 _ ht
    rw [readinessAfter_append, readinessAfter_messageEvents, handleCalls_append,
      handleCalls_messageEvents]
    cases err with
    | none =>
      simp only [Option.isSome_none, Bool.false_eq_true, if_false, ht, List.mem_append,
        List.mem_singleton]
      constructor
      · intro h c hc
        rcases hc with hc | hc
        · exact h c hc
        · subst hc; rfl
      · intro h c hc
        exact h c (Or.inl hc)
    | some e =>
      simp only [Option.isSome_some, if_true, PartitionReadiness.set, List.mem_append,
        List.mem_singleton]
      constructor
      · intro h; simp at h
      · intro h
        have := h ⟨_, m, mm, some e⟩ (Or.inr rfl)
        simp at this

/-! ## The handler behind the trace -/

theorem replayHandler_append {σ : Type} (h : KafkaConsumerHandler σ) (a b : List Event) :
    ∀ s : σ, replayHandler h (a ++ b) s = replayHandler h b (replayHandler h a s) := by
  induction a with
  | nil => intro s; rfl
  | cons e t ih => intro s; cases e <;> simp [replayHandler, ih]

theorem handlerAgrees_append {σ : Type} (h : KafkaConsumerHandler σ) (a b : List Event) :
    ∀ s : σ, handlerAgrees h (a ++ b) s
      ↔ handlerAgrees h a s ∧ handlerAgrees h b (replayHandler h a s) := by
  induction a with
  | nil => intro s; simp [handlerAgrees, replayHandler]
  | cons e t ih => intro s; cases e <;> simp [handlerAgrees, replayHandler, ih, and_assoc]

/-- The state the loop body leaves is the state of the handler after the calls it
records. -/
theorem processMessage_state {σ : Type} (consumer : SaramaConsumerHandler σ)
    (claim : ConsumerGroupClaim) (m : ConsumerMessage) (w : World σ) :
    (processMessage consumer claim m w).state
      = replayHandler consumer.handler
          (messageEvents (Context.WithTimeout Context.Background consumer.timeout)
            claim.Partition m
            (consumer.handler.Handle (Context.WithTimeout Context.Background consumer.timeout)
              m w.state).1.1
            (consumer.handler.Handle (Context.WithTimeout Context.Background consumer.timeout)
              m w.state).1.2) w.state := by
  unfold processMessage messageEvents
  cases h1 : (consumer.handler.Handle (Context.WithTimeout Context.Background consumer.timeout)
      m w.state).1.2 <;>
    cases h2 : (consumer.handler.Handle (Context.WithTimeout Context.Background consumer.timeout)
      m w.state).1.1 <;>
    simp [World.SendError, World.SetReady, World.MarkMessage, replayHandler, h1, h2]

/-- The events of one message carry what the handler returned. -/
theorem handlerAgrees_messageEvents {σ : Type} (consumer : SaramaConsumerHandler σ)
    (p : Int) (m : ConsumerMessage) (s : σ) :
    handlerAgrees consumer.handler
      (messageEvents (Context.WithTimeout Context.Background consumer.timeout) p m
        (consumer.handler.Handle (Context.WithTimeout Context.Background consumer.timeout)
          m s).1.1
        (consumer.handler.Handle (Context.WithTimeout Context.Background consumer.timeout)
          m s).1.2) s := by
  unfold messageEvents
  cases h1 : (consumer.handler.Handle (Context.WithTimeout Context.Background consumer.timeout)
      m s).1.2 <;>
    cases h2 : (consumer.handler.Handle (Context.WithTimeout Context.Background consumer.timeout)
      m s).1.1 <;>
    simp [handlerAgrees, Prod.ext_iff, h1, h2]

/-- After `ConsumeClaim` the handler is in the state that the calls of the trace, made on
it in order, leave it in, and every `Handle` event carries what the handler returned. -/
theorem ConsumeClaim_state {σ : Type} (consumer : SaramaConsumerHandler σ)
    (session : ConsumerGroupSession) (claim : ConsumerGroupClaim) (s : σ) :
    (ConsumeClaim consumer session claim (World.start s)).2.state
        = replayHandler consumer.handler (claimTrace consumer session claim s) s
    ∧ handlerAgrees consumer.handler (claimTrace consumer session claim s) s := by
  simp only [claimTrace, ConsumeClaim]
  apply consumeLoop_preserves consumer session claim
    (fun w => w.state = replayHandler consumer.handler w.trace s
      ∧ handlerAgrees consumer.handler w.trace s)
  · intro m w hw
    constructor
    · rw [processMessage_state, processMessage_trace, replayHandler_append, ← hw.1]
    · rw [processMessage_trace, handlerAgrees_append, ← hw.1]
      exact ⟨hw.2, handlerAgrees_messageEvents consumer claim.Partition m w.state⟩
  · simp [World.SetReady, World.start, replayHandler, handlerAgrees]

/-- When `SetReady` writes a readiness mapping kept in the handler and `Handle` leaves it
alone, the mapping after the calls of a trace is the mapping computed from the trace. -/
theorem ready_replayHandler {σ : Type} (h : KafkaConsumerHandler σ)
    (ready : σ → PartitionReadiness)
    (hset : ∀ p b s1, ready (h.SetReady p b s1) = (ready s1).set p b)
    (hhandle : ∀ ctx m s1, ready (h.Handle ctx m s1).2 = ready s1) :
    ∀ (t : List Event) (s : σ), ready (replayHandler h t s) = readinessAfter (ready s) t := by
  intro t
  induction t with
  | nil => intro s; rfl
  | cons e t ih =>
    intro s
    cases e <;> simp [replayHandler, readinessAfter, ih, hset, hhandle]

/-! ## `ConsumeClaim` on concrete inputs -/

/-- The run of `ConsumeClaim` on offsets 0, 1, 2 with the handler failing on odd offsets
and the session open: offset 1 is reported and not marked, readiness is withdrawn after it
and not given back after offset 2. -/
theorem claimTrace_oddFails_open :
    claimTrace (NewConsumerHandler oddFailsHandler) openSession exampleClaim 0
      = [Event.SetReady 0 true,
         Event.Handle ⟨some 60000000000⟩ (exampleMessage 0) true none,
         Event.MarkMessage (exampleMessage 0),
         Event.Handle ⟨some 60000000000⟩ (exampleMessage 1) false (some "failed"),
         Event.ErrorSent "failed",
         Event.SetReady 0 false,
         Event.Handle ⟨some 60000000000⟩ (exampleMessage 2) true none,
         Event.MarkMessage (exampleMessage 2)] := by
  rfl

/-- The same run with the session found closed at the second message: only offset 0 is
handled. -/
theorem claimTrace_oddFails_closed :
    claimTrace (NewConsumerHandler oddFailsHandler) (sessionClosedFrom 1) exampleClaim 0
      = [Event.SetReady 0 true,
         Event.Handle ⟨some 60000000000⟩ (exampleMessage 0) true none,
         Event.MarkMessage (exampleMessage 0)] := by
  rfl

/-! ## Marking, error reporting, readiness and cancellation in `ConsumeClaim` -/

/-- C1: when the session is not found closed during the claim, `ConsumeClaim` hands every
message of the claim to the handler once, in claim order, and marks exactly the messages
whose call returned `mustMark = true`, each once and in claim order, whatever error the
call returned; for a handler whose result depends on the message only these are the
messages of the claim on which it returns `mustMark = true`, and for a handler that always
returns `(true, nil)` they are all the messages of the claim. -/
theorem ConsumeClaim_marks_exactly_mustMark {σ : Type} (consumer : SaramaConsumerHandler σ)
    (session : ConsumerGroupSession) (claim : ConsumerGroupClaim) (s : σ)
    (hopen : ∀ k, k < claim.Messages.length → session.Done k = false) :
    (handleCalls (claimTrace consumer session claim s)).map (fun c => c.message)
        = claim.Messages
    ∧ markedOf (claimTrace consumer session claim s)
        = ((handleCalls (claimTrace consumer session claim s)).filter
            (fun c => c.mustMark)).map (fun c => c.message)
    ∧ List.Sublist (markedOf (claimTrace consumer session claim s)) claim.Messages
    ∧ (∀ f : ConsumerMessage → Bool × Option Error,
        (∀ ctx m s1, (consumer.handler.Handle ctx m s1).1 = f m) →
        markedOf (claimTrace consumer session claim s)
          = claim.Messages.filter (fun m => (f m).1))
    ∧ ((∀ ctx m s1, (consumer.handler.Handle ctx m s1).1 = (true, none)) →
        markedOf (claimTrace consumer session claim s) = claim.Messages) := by
  have hcalls := claimTrace_calls_open consumer session claim s hopen
  have hmarked := claimTrace_marked consumer session claim s
  have hfun : ∀ f : ConsumerMessage → Bool × Option Error,
      (∀ ctx m s1, (consumer.handler.Handle ctx m s1).1 = f m) →
      markedOf (claimTrace consumer session claim s)
        = claim.Messages.filter (fun m => (f m).1) := by
    intro f hf
    rw [claimTrace_marked_of_fun consumer session claim s f hf, hcalls]
  refine ⟨hcalls, hmarked, ?_, hfun, ?_⟩
  · rw [hmarked]
    have h := (List.filter_sublist (p := fun c : HandleCall => c.mustMark)
      (handleCalls (claimTrace consumer session claim s))).map (fun c => c.message)
    rwa [hcalls] at h
  · intro hall
    rw [hfun (fun _ => (true, none)) hall]
    simp

/-- C1 at the claim of offsets 0, 1, 2 with the handler that always returns `(true, nil)`. -/
theorem ConsumeClaim_marks_exactly_mustMark_witness :
    (∀ k, k < exampleClaim.Messages.length → openSession.Done k = false)
    ∧ markedOf (claimTrace (NewConsumerHandler markAllHandler) openSession exampleClaim 0)
        = [exampleMessage 0, exampleMessage 1, exampleMessage 2] :=
  ⟨fun _ _ => rfl,
    (ConsumeClaim_marks_exactly_mustMark (NewConsumerHandler markAllHandler) openSession
      exampleClaim 0 (fun _ _ => rfl)).2.2.2.2 (fun _ _ _ => rfl)⟩

/-- C2: whatever the session does, `ConsumeClaim` hands to the handler the first `n`
messages of the claim, one call per message and in order (no message is handed twice), and
the errors it sends on the error channel are exactly the errors returned by these calls, in
order and once each, a call that returns no error sending nothing; for a handler whose
result depends on the message only they are the errors it returns on these messages. -/
theorem ConsumeClaim_errors_exactly_returned {σ : Type} (consumer : SaramaConsumerHandler σ)
    (session : ConsumerGroupSession) (claim : ConsumerGroupClaim) (s : σ) :
    (∃ n, n ≤ claim.Messages.length ∧
        (handleCalls (claimTrace consumer session claim s)).map (fun c => c.message)
          = claim.Messages.take n)
    ∧ errorsOf (claimTrace consumer session claim s)
        = (handleCalls (claimTrace consumer session claim s)).filterMap (fun c => c.err)
    ∧ (∀ f : ConsumerMessage → Bool × Option Error,
        (∀ ctx m s1, (consumer.handler.Handle ctx m s1).1 = f m) →
        errorsOf (claimTrace consumer session claim s)
          = ((handleCalls (claimTrace consumer session claim s)).map
              (fun c => c.message)).filterMap (fun m => (f m).2)) :=
  ⟨claimTrace_calls_take consumer session claim s,
    claimTrace_errors consumer session claim s,
    fun f hf => claimTrace_errors_of_fun consumer session claim s f hf⟩

/-- C2 at the claim of offsets 0, 1, 2 with the handler failing on odd offsets: one error
is sent, the one returned for offset 1. -/
theorem ConsumeClaim_errors_exactly_returned_witness :
    errorsOf (claimTrace (NewConsumerHandler oddFailsHandler) openSession exampleClaim 0)
        = (handleCalls (claimTrace (NewConsumerHandler oddFailsHandler) openSession
            exampleClaim 0)).filterMap (fun c => c.err)
    ∧ errorsOf (claimTrace (NewConsumerHandler oddFailsHandler) openSession exampleClaim 0)
        = ["failed"] :=
  ⟨(ConsumeClaim_errors_exactly_returned (NewConsumerHandler oddFailsHandler) openSession
      exampleClaim 0).2.1, rfl⟩

/-- C3: in a run of `ConsumeClaim` on partition `p` the calls of `SetReady` are
`SetReady(p, true)` once, before any call of `Handle`, and `SetReady(p, false)` right after
each call of `Handle` that returned an error, and no other; so after the first `k` messages
of the claim, for every `k`, `p` is ready exactly when no call of `Handle` made so far
returned an error, and once `p` is not ready it stays so for the rest of the claim. The
recorded calls are the calls made: the handler ends in the state that these calls of
`SetReady` and `Handle`, made on it in order, leave it in, every `Handle` event carries
what the handler returned, and a readiness mapping that the handler keeps and `SetReady`
writes ends as computed from the recorded calls. -/
theorem ConsumeClaim_readiness {σ : Type} (consumer : SaramaConsumerHandler σ)
    (session : ConsumerGroupSession) (claim : ConsumerGroupClaim) (s : σ) :
    handleAndReady (claimTrace consumer session claim s)
        = Event.SetReady claim.Partition true ::
            expectedHandleAndReady claim.Partition
              (handleCalls (claimTrace consumer session claim s))
    ∧ setReadyCalls (claimTrace consumer session claim s)
        = (claim.Partition, true) ::
            List.replicate
              ((handleCalls (claimTrace consumer session claim s)).filter
                (fun c => c.err.isSome)).length
              (claim.Partition, false)
    ∧ (∀ (r0 : PartitionReadiness) (k : Nat),
        readinessAfter r0 (claimTrace consumer session (claim.firstMessages k) s)
            claim.Partition = true
          ↔ ∀ c ∈ handleCalls (claimTrace consumer session (claim.firstMessages k) s),
              c.err = none)
    ∧ (∀ (r0 : PartitionReadiness) (j k : Nat), j ≤ k →
        readinessAfter r0 (claimTrace consumer session (claim.firstMessages j) s)
            claim.Partition = false →
        readinessAfter r0 (claimTrace consumer session (claim.firstMessages k) s)
            claim.Partition = false)
    ∧ (ConsumeClaim consumer session claim (World.start s)).2.state
        = replayHandler consumer.handler (claimTrace consumer session claim s) s
    ∧ handlerAgrees consumer.handler (claimTrace consumer session claim s) s
    ∧ (∀ ready : σ → PartitionReadiness,
        (∀ p b s1, ready (consumer.handler.SetReady p b s1) = (ready s1).set p b) →
        (∀ ctx m s1, ready (consumer.handler.Handle ctx m s1).2 = ready s1) →
        ∀ k : Nat,
          ready (ConsumeClaim consumer session (claim.firstMessages k) (World.start s)).2.state
            = readinessAfter (ready s)
                (claimTrace consumer session (claim.firstMessages k) s)) := by
  refine ⟨claimTrace_handleAndReady consumer session claim s,
    claimTrace_setReadyCalls consumer session claim s, ?_, ?_,
    (ConsumeClaim_state consumer session claim s).1,
    (ConsumeClaim_state consumer session claim s).2, ?_⟩
  rotate_right
  · intro ready hset hhandle k
    rw [(ConsumeClaim_state consumer session (claim.firstMessages k) s).1]
    exact ready_replayHandler consumer.handler ready hset hhandle _ s
  · intro r0 k
    exact claimTrace_readiness consumer session (claim.firstMessages k) s r0
  · intro r0 j k hjk hj
    obtain ⟨ext, hext⟩ := claimTrace_firstMessages_extends consumer session claim s j k hjk
    cases hk : readinessAfter r0 (claimTrace consumer session (claim.firstMessages k) s)
        claim.Partition with
    | false => rfl
    | true =>
      have hall := (claimTrace_readiness consumer session (claim.firstMessages k) s r0).1 hk
      have hjt := (claimTrace_readiness consumer session (claim.firstMessages j) s r0).2
        (fun c hc => hall c (by rw [hext, handleCalls_append]; exact List.mem_append_left _ hc))
      have hp : (claim.firstMessages j).Partition = claim.Partition := rfl
      rw [hp, hj] at hjt
      exact absurd hjt (by simp)

/-- C3 at the claim of offsets 0, 1, 2 with the handler failing on odd offsets: ready
after offset 0, not ready after offset 1, still not ready after offset 2, in the trace and
in the readiness mapping that the handler itself keeps. -/
theorem ConsumeClaim_readiness_witness :
    readinessAfter (fun _ => false)
        (claimTrace (NewConsumerHandler oddFailsHandler) openSession
          (exampleClaim.firstMessages 1) 0) 0 = true
    ∧ readinessAfter (fun _ => false)
        (claimTrace (NewConsumerHandler oddFailsHandler) openSession
          (exampleClaim.firstMessages 2) 0) 0 = false
    ∧ readinessAfter (fun _ => false)
        (claimTrace (NewConsumerHandler oddFailsHandler) openSession
          (exampleClaim.firstMessages 3) 0) 0 = false
    ∧ (ConsumeClaim (NewConsumerHandler readinessHandler) openSession
          (exampleClaim.firstMessages 1) (World.start (fun _ => false))).2.state 0 = true
    ∧ (ConsumeClaim (NewConsumerHandler readinessHandler) openSession
          (exampleClaim.firstMessages 3) (World.start (fun _ => false))).2.state 0 = false
    ∧ (ConsumeClaim (NewConsumerHandler readinessHandler) openSession
          (exampleClaim.firstMessages 3) (World.start (fun _ => false))).2.state
        = readinessAfter (fun _ => false)
            (claimTrace (NewConsumerHandler readinessHandler) openSession
              (exampleClaim.firstMessages 3) (fun _ => false)) :=
  ⟨rfl, rfl,
    (ConsumeClaim_readiness (NewConsumerHandler oddFailsHandler) openSession exampleClaim
      0).2.2.2.1 (fun _ => false) 2 3 (by decide) rfl,
    rfl, rfl,
    (ConsumeClaim_readiness (NewConsumerHandler readinessHandler) openSession exampleClaim
      (fun _ => false)).2.2.2.2.2.2 (fun r => r) (fun _ _ _ => rfl)
      (fun _ m _ => by
        show (if m.Offset % 2 = 1 then
            (((false, some "failed") : Bool × Option Error), _) else ((true, none), _)).2 = _
        split <;> rfl) 3⟩

/-- C5: if the session is found closed at the check made for the message at position `k`
of the claim (the checks for the messages before it having found it open), `ConsumeClaim`
does exactly what it does on the claim cut to its first `k` messages and returns `nil`: the
handler is called on these `k` messages and on no other, every marked message is among
them, and the errors sent are those returned by these `k` calls. -/
theorem ConsumeClaim_stops_when_session_closed {σ : Type} (consumer : SaramaConsumerHandler σ)
    (session : ConsumerGroupSession) (claim : ConsumerGroupClaim) (s : σ) (k : Nat)
    (hk : k < claim.Messages.length) (hclosed : session.Done k = true)
    (hbefore : ∀ j, j < k → session.Done j = false) :
    ConsumeClaim consumer session claim (World.start s)
        = ConsumeClaim consumer session (claim.firstMessages k) (World.start s)
    ∧ (ConsumeClaim consumer session claim (World.start s)).1 = none
    ∧ (handleCalls (claimTrace consumer session claim s)).map (fun c => c.message)
        = claim.Messages.take k
    ∧ (handleCalls (claimTrace consumer session claim s)).length = k
    ∧ List.Sublist (markedOf (claimTrace consumer session claim s)) (claim.Messages.take k)
    ∧ errorsOf (claimTrace consumer session claim s)
        = (handleCalls (claimTrace consumer session claim s)).filterMap (fun c => c.err)
    ∧ (errorsOf (claimTrace consumer session claim s)).length ≤ k := by
  have hcut := ConsumeClaim_cut consumer session claim (World.start s) k hk hclosed hbefore
  have hlen : (claim.Messages.take k).length = k := by
    rw [List.length_take]; omega
  have hcalls : (handleCalls (claimTrace consumer session claim s)).map (fun c => c.message)
      = claim.Messages.take k := by
    have h := claimTrace_calls_open consumer session (claim.firstMessages k) s
      (by
        intro j hj
        have hj2 : j < (claim.Messages.take k).length := hj
        rw [hlen] at hj2
        exact hbefore j hj2)
    have ht : claimTrace consumer session claim s
        = claimTrace consumer session (claim.firstMessages k) s := by
      unfold claimTrace; rw [hcut]
    rw [ht]
    exact h
  have hn : (handleCalls (claimTrace consumer session claim s)).length = k := by
    have := congrArg List.length hcalls
    rwa [List.length_map, hlen] at this
  have herr := claimTrace_errors consumer session claim s
  refine ⟨hcut, rfl, hcalls, hn, ?_, herr, ?_⟩
  · rw [claimTrace_marked]
    have h := (List.filter_sublist (p := fun c : HandleCall => c.mustMark)
      (handleCalls (claimTrace consumer session claim s))).map (fun c => c.message)
    rwa [hcalls] at h
  · rw [herr]
    exact le_trans (List.length_filterMap_le _ _) (le_of_eq hn)

/-- C5 at the claim of offsets 0, 1, 2 with the session found closed at the second
message: the handler is called on offset 0 only. -/
theorem ConsumeClaim_stops_when_session_closed_witness :
    (1 < exampleClaim.Messages.length ∧ (sessionClosedFrom 1).Done 1 = true
      ∧ ∀ j, j < 1 → (sessionClosedFrom 1).Done j = false)
    ∧ (handleCalls (claimTrace (NewConsumerHandler markAllHandler) (sessionClosedFrom 1)
        exampleClaim 0)).map (fun c => c.message) = [exampleMessage 0] :=
  ⟨⟨by decide, rfl, fun j hj => by simp [sessionClosedFrom]; omega⟩,
    (ConsumeClaim_stops_when_session_closed (NewConsumerHandler markAllHandler)
      (sessionClosedFrom 1) exampleClaim 0 1 (by decide) rfl
      (fun j hj => by simp [sessionClosedFrom]; omega)).2.2.1⟩

/-! ## `Cleanup` -/

theorem cleanupPartitions_trace {σ : Type} (consumer : SaramaConsumerHandler σ) :
    ∀ (ps : List Int) (w : World σ),
      (cleanupPartitions consumer ps w).trace
        = w.trace ++ ps.map (fun p => Event.SetReady p false) := by
  intro ps
  induction ps with
  | nil => intro w; simp [cleanupPartitions]
  | cons p rest ih => intro w; simp [cleanupPartitions, ih, World.SetReady]

theorem cleanupClaims_trace {σ : Type} (consumer : SaramaConsumerHandler σ) :
    ∀ (claims : List (String × List Int)) (w : World σ),
      (cleanupClaims consumer claims w).trace
        = w.trace ++ ((claims.map (fun tps => tps.2)).flatten).map
            (fun p => Event.SetReady p false) := by
  intro claims
  induction claims with
  | nil => intro w; simp [cleanupClaims]
  | cons c rest ih =>
    intro w
    obtain ⟨t, ps⟩ := c
    simp [cleanupClaims, ih, cleanupPartitions_trace]

/-- The events of `Cleanup`: `SetReady(p, false)` for the listed partitions, in order,
then the listener hook. -/
theorem Cleanup_trace {σ : Type} (consumer : SaramaConsumerHandler σ)
    (session : ConsumerGroupSession) (w : World σ) :
    (Cleanup consumer session w).2.trace
      = w.trace ++ (session.partitions.map (fun p => Event.SetReady p false)
          ++ [Event.ListenerCleanup]) := by
  simp [Cleanup, cleanupClaims_trace, ConsumerGroupSession.partitions]

theorem readinessAfter_setFalse (ps : List Int) :
    ∀ (r : PartitionReadiness) (q : Int),
      readinessAfter r (ps.map (fun p => Event.SetReady p false)) q
        = if q ∈ ps then false else r q := by
  induction ps with
  | nil => intro r q; simp [readinessAfter]
  | cons p rest ih =>
    intro r q
    simp only [List.map_cons, readinessAfter, ih, List.mem_cons, PartitionReadiness.set]
    by_cases h1 : q ∈ rest <;> by_cases h2 : q = p <;> simp [h1, h2]

/-- Readiness after `Cleanup`: not ready for the listed partitions, as before for the
others. -/
theorem readinessAfter_Cleanup {σ : Type} (consumer : SaramaConsumerHandler σ)
    (session : ConsumerGroupSession) (w : World σ) (r0 : PartitionReadiness) (q : Int) :
    readinessAfter r0 (Cleanup consumer session w).2.trace q
      = if q ∈ session.partitions then false else readinessAfter r0 w.trace q := by
  rw [Cleanup_trace, readinessAfter_append, readinessAfter_append]
  simp only [readinessAfter]
  rw [readinessAfter_setFalse]

theorem cleanupPartitions_state {σ : Type} (consumer : SaramaConsumerHandler σ) :
    ∀ (ps : List Int) (w : World σ),
      (cleanupPartitions consumer ps w).state
        = ps.foldl (fun s p => consumer.handler.SetReady p false s) w.state := by
  intro ps
  induction ps with
  | nil => intro w; rfl
  | cons p rest ih => intro w; simp [cleanupPartitions, ih, World.SetReady]

theorem cleanupClaims_state {σ : Type} (consumer : SaramaConsumerHandler σ) :
    ∀ (claims : List (String × List Int)) (w : World σ),
      (cleanupClaims consumer claims w).state
        = ((claims.map (fun tps => tps.2)).flatten).foldl
            (fun s p => consumer.handler.SetReady p false s) w.state := by
  intro claims
  induction claims with
  | nil => intro w; rfl
  | cons c rest ih =>
    intro w
    obtain ⟨t, ps⟩ := c
    simp [cleanupClaims, ih, cleanupPartitions_state, List.foldl_append]

/-- The state `Cleanup` leaves: `SetReady(p, false)` made on the handler for the listed
partitions, in order, then the listener hook. -/
theorem Cleanup_state {σ : Type} (consumer : SaramaConsumerHandler σ)
    (session : ConsumerGroupSession) (w : World σ) :
    (Cleanup consumer session w).2.state
      = consumer.lifecycleListener.Cleanup session
          (session.partitions.foldl (fun s p => consumer.handler.SetReady p false s)
            w.state) := by
  simp [Cleanup, cleanupClaims_state, ConsumerGroupSession.partitions]

/-- A readiness mapping kept in the handler after `SetReady(p, false)` for the partitions
of a list. -/
theorem ready_foldl_SetReady_false {σ : Type} (h : KafkaConsumerHandler σ)
    (ready : σ → PartitionReadiness)
    (hset : ∀ p b s1, ready (h.SetReady p b s1) = (ready s1).set p b) :
    ∀ (ps : List Int) (s : σ) (q : Int),
      ready (ps.foldl (fun s1 p => h.SetReady p false s1) s) q
        = if q ∈ ps then false else ready s q := by
  intro ps
  induction ps with
  | nil => intro s q; simp
  | cons p rest ih =>
    intro s q
    simp only [List.foldl_cons, ih, hset, PartitionReadiness.set, List.mem_cons]
    by_cases h1 : q ∈ rest <;> by_cases h2 : q = p <;> simp [h1, h2]

/-- C6: `Cleanup` calls `SetReady(p, false)` on the handler for every partition of every
topic listed in the claims of the session, in the order of the listing, calls `SetReady`
with `true` for no partition, then calls the `Cleanup` hook of the lifecycle listener, and
returns `nil`: the state it leaves is the hook applied to the handler state after these
calls of `SetReady`. After it every listed partition is not ready and no partition is ready
that was not before, in the mapping computed from the recorded calls and in a readiness
mapping that the handler keeps, `SetReady` writes and the hook leaves alone. -/
theorem Cleanup_sets_claimed_not_ready {σ : Type} (consumer : SaramaConsumerHandler σ)
    (session : ConsumerGroupSession) (w : World σ) :
    (Cleanup consumer session w).1 = none
    ∧ (Cleanup consumer session w).2.trace
        = w.trace ++ (session.partitions.map (fun p => Event.SetReady p false)
            ++ [Event.ListenerCleanup])
    ∧ (Cleanup consumer session w).2.state
        = consumer.lifecycleListener.Cleanup session
            (session.partitions.foldl (fun s p => consumer.handler.SetReady p false s)
              w.state)
    ∧ (∀ (r0 : PartitionReadiness) (t : String) (ps : List Int) (p : Int),
        (t, ps) ∈ session.Claims → p ∈ ps →
        readinessAfter r0 (Cleanup consumer session w).2.trace p = false)
    ∧ (∀ (r0 : PartitionReadiness) (p : Int),
        readinessAfter r0 (Cleanup consumer session w).2.trace p = true →
        readinessAfter r0 w.trace p = true)
    ∧ (∀ ready : σ → PartitionReadiness,
        (∀ p b s1, ready (consumer.handler.SetReady p b s1) = (ready s1).set p b) →
        (∀ s1, ready (consumer.lifecycleListener.Cleanup session s1) = ready s1) →
        ∀ q : Int, ready (Cleanup consumer session w).2.state q
          = if q ∈ session.partitions then false else ready w.state q) := by
  refine ⟨rfl, Cleanup_trace consumer session w, Cleanup_state consumer session w, ?_, ?_, ?_⟩
  rotate_right
  · intro ready hset hhook q
    rw [Cleanup_state, hhook,
      ready_foldl_SetReady_false consumer.handler ready hset session.partitions w.state q]
  · intro r0 t ps p hmem hp
    have hin : p ∈ session.partitions := by
      unfold ConsumerGroupSession.partitions
      rw [List.mem_flatten]
      exact ⟨ps, List.mem_map.2 ⟨(t, ps), hmem, rfl⟩, hp⟩
    rw [readinessAfter_Cleanup, if_pos hin]
  · intro r0 p h
    rw [readinessAfter_Cleanup] at h
    by_cases hin : p ∈ session.partitions
    · rw [if_pos hin] at h; exact absurd h (by simp)
    · rwa [if_neg hin] at h

/-- C6 on a session claiming partitions 0 and 1 of one topic and 2 of another, started
with partitions 0 and 2 ready: partition 2 is not ready afterwards, in the trace and in the
mapping the handler keeps, and partition 7, not claimed, stays as it was. -/
theorem Cleanup_sets_claimed_not_ready_witness :
    (("other", [2]) ∈ exampleCleanupSession.Claims ∧ (2 : Int) ∈ [2])
    ∧ readinessAfter (fun _ => false)
        (Cleanup (NewConsumerHandler markAllHandler) exampleCleanupSession
          ⟨0, [Event.SetReady 0 true, Event.SetReady 2 true]⟩).2.trace 2 = false
    ∧ (Cleanup (NewConsumerHandler readinessHandler) exampleCleanupSession
          ⟨fun q => decide (q = 0 ∨ q = 2 ∨ q = 7), []⟩).2.state 2 = false
    ∧ (Cleanup (NewConsumerHandler readinessHandler) exampleCleanupSession
          ⟨fun q => decide (q = 0 ∨ q = 2 ∨ q = 7), []⟩).2.state 7 = true :=
  ⟨⟨by simp [exampleCleanupSession], by simp⟩,
    (Cleanup_sets_claimed_not_ready (NewConsumerHandler markAllHandler) exampleCleanupSession
      ⟨0, [Event.SetReady 0 true, Event.SetReady 2 true]⟩).2.2.2.1 (fun _ => false)
      "other" [2] 2 (by simp [exampleCleanupSession]) (by simp),
    rfl, rfl⟩

/-! ## The readiness invariant of the engine -/

theorem readinessAfter_snoc_SetReady (r : PartitionReadiness) (t : List Event) (p : Int)
    (b : Bool) :
    readinessAfter r (t ++ [Event.SetReady p b]) = (readinessAfter r t).set p b := by
  rw [readinessAfter_append]
  rfl

/-- The partition of a listed claim is a listed partition. -/
theorem mem_partitions_of_mem_claimKeys (session : ConsumerGroupSession) (t : String) (p : Int)
    (h : (t, p) ∈ session.claimKeys) : p ∈ session.partitions := by
  simp only [ConsumerGroupSession.claimKeys, List.mem_flatten, List.mem_map] at h
  obtain ⟨l, ⟨tps, htps, rfl⟩, hl⟩ := h
  simp only [List.mem_map, Prod.mk.injEq] at hl
  obtain ⟨q, hq, -, rfl⟩ := hl
  simp only [ConsumerGroupSession.partitions, List.mem_flatten, List.mem_map]
  exact ⟨tps.2, ⟨tps, htps, rfl⟩, hq⟩

/-- Every step keeps the readiness invariant. -/
theorem step_keeps_invariant {σ : Type} (consumer : SaramaConsumerHandler σ)
    (st st1 : EngineState σ) (a : Action) (hinv : EngineInvariant st)
    (hstep : step consumer st a = some st1) : EngineInvariant st1 := by
  cases a with
  | entry claim =>
    simp only [step] at hstep
    split at hstep
    · cases hstep
      intro p hp
      simp only [EngineState.readiness, World.SetReady, readinessAfter_snoc_SetReady,
        PartitionReadiness.set] at hp
      by_cases hq : p = claim.Partition
      · exact ⟨claim.Topic, by simp [setAt, hq], by simp [setAt, hq, ConsumerGroupClaim.key],
          by simp [setAt, hq, ConsumerGroupClaim.key]⟩
      · simp only [hq, if_false] at hp
        obtain ⟨t, h1, h2, h3⟩ := hinv p hp
        have hk : (t, p) ≠ claim.key := by
          intro hc
          exact hq (congrArg Prod.snd hc)
        exact ⟨t, by simpa [setAt, hq] using h1, by simpa [setAt, hk] using h2,
          by simpa [setAt, hk] using h3⟩
    · cases hstep
  | message claim m =>
    simp only [step] at hstep
    split at hstep
    · cases hstep
      intro p hp
      simp only [EngineState.readiness] at hp
      rw [processMessage_trace, readinessAfter_append, readinessAfter_messageEvents] at hp
      cases herr : (consumer.handler.Handle
          (Context.WithTimeout Context.Background consumer.timeout) m st.world.state).1.2 with
      | none =>
        simp only [herr, Option.isSome_none, Bool.false_eq_true, if_false] at hp
        obtain ⟨t, h1, h2, h3⟩ := hinv p hp
        refine ⟨t, h1, h2, ?_⟩
        by_cases hk : (t, p) = claim.key
        · simp [setAt, hk]
        · simpa [setAt, hk] using h3
      | some e =>
        simp only [herr, Option.isSome_some, if_true, PartitionReadiness.set] at hp
        by_cases hq : p = claim.Partition
        · simp [hq] at hp
        · simp only [hq, if_false] at hp
          obtain ⟨t, h1, h2, h3⟩ := hinv p hp
          have hk : (t, p) ≠ claim.key := by
            intro hc
            exact hq (congrArg Prod.snd hc)
          exact ⟨t, h1, h2, by simpa [setAt, hk] using h3⟩
    · cases hstep
  | ret claim =>
    simp only [step] at hstep
    split at hstep
    · cases hstep
      intro p hp
      obtain ⟨t, h1, h2, h3⟩ := hinv p hp
      refine ⟨t, h1, ?_, h3⟩
      by_cases hk : (t, p) = claim.key
      · simp [setAt, hk]
      · simpa [setAt, hk] using h2
    · cases hstep
  | cleanup session =>
    simp only [step] at hstep
    split at hstep
    · cases hstep
      intro p hp
      simp only [EngineState.readiness] at hp
      rw [readinessAfter_Cleanup] at hp
      by_cases hq : p ∈ session.partitions
      · simp [hq] at hp
      · simp only [hq, if_false] at hp
        obtain ⟨t, h1, h2, h3⟩ := hinv p hp
        have hk : (t, p) ∉ session.claimKeys :=
          fun hc => hq (mem_partitions_of_mem_claimKeys session t p hc)
        exact ⟨t, h1, by simpa [hk] using h2, h3⟩
    · cases hstep

/-- Runs keep the readiness invariant. -/
theorem run_keeps_invariant {σ : Type} (consumer : SaramaConsumerHandler σ) :
    ∀ (actions : List Action) (st st1 : EngineState σ), EngineInvariant st →
      run consumer actions st = some st1 → EngineInvariant st1 := by
  intro actions
  induction actions with
  | nil =>
    intro st st1 hinv hrun
    simp only [run] at hrun
    cases hrun
    exact hinv
  | cons a rest ih =>
    intro st st1 hinv hrun
    simp only [run] at hrun
    cases hs : step consumer st a with
    | none => rw [hs] at hrun; cases hrun
    | some st2 =>
      rw [hs] at hrun
      exact ih st2 st1 (step_keeps_invariant consumer st st2 a hinv hs) hrun

/-- With the session open the loop of `ConsumeClaim` is the loop body run on each message. -/
theorem consumeLoop_open_eq_foldl {σ : Type} (consumer : SaramaConsumerHandler σ)
    (session : ConsumerGroupSession) (claim : ConsumerGroupClaim) :
    ∀ (msgs : List ConsumerMessage) (k : Nat) (w : World σ),
      (∀ j, j < msgs.length → session.Done (k + j) = false) →
      consumeLoop consumer session claim k msgs w
        = msgs.foldl (fun v m => processMessage consumer claim m v) w := by
  intro msgs
  induction msgs with
  | nil => intro k w _; rfl
  | cons m rest ih =>
    intro k w hopen
    have h0 : session.Done k = false := by simpa using hopen 0 (by simp)
    have hrest : ∀ j, j < rest.length → session.Done (k + 1 + j) = false := by
      intro j hj
      have := hopen (j + 1) (by simpa using hj)
      simpa [Nat.add_assoc, Nat.add_comm 1 j] using this
    simp only [consumeLoop, sessionClosed, h0, List.foldl_cons]
    rw [if_neg (by simp)]
    exact ih (k + 1) _ hrest

/-- The message steps of a running claim loop, taken one after the other, apply the loop
body to each message and leave the loop running. -/
theorem run_messages {σ : Type} (consumer : SaramaConsumerHandler σ)
    (claim : ConsumerGroupClaim) (tail : List Action) :
    ∀ (msgs : List ConsumerMessage) (st : EngineState σ),
      st.phase claim.key = Phase.running →
      ∃ st1, st1.phase = st.phase
        ∧ st1.world = msgs.foldl (fun v m => processMessage consumer claim m v) st.world
        ∧ run consumer (msgs.map (fun m => Action.message claim m) ++ tail) st
            = run consumer tail st1 := by
  intro msgs
  induction msgs with
  | nil => intro st _; exact ⟨st, rfl, rfl, rfl⟩
  | cons m rest ih =>
    intro st hph
    obtain ⟨st1, h1, h2, h3⟩ := ih
      ⟨processMessage consumer claim m st.world, st.phase,
        setAt st.lastFailed claim.key
          (consumer.handler.Handle (Context.WithTimeout Context.Background consumer.timeout)
            m st.world.state).1.2.isSome, st.latest⟩ hph
    refine ⟨st1, h1, h2, ?_⟩
    simp only [List.map_cons, List.cons_append, run, step, hph, if_true]
    exact h3

/-- The transition system runs `ConsumeClaim`: from a state in which no loop is running for
the claim, the steps entry, one per message, return can be taken, and they leave the world
that `ConsumeClaim` leaves when the session stays open. -/
theorem run_claimActions {σ : Type} (consumer : SaramaConsumerHandler σ)
    (session : ConsumerGroupSession) (claim : ConsumerGroupClaim) (st : EngineState σ)
    (hidle : st.phase claim.key ≠ Phase.running)
    (hopen : ∀ k, k < claim.Messages.length → session.Done k = false) :
    ∃ st1, run consumer (claimActions claim) st = some st1
      ∧ st1.world = (ConsumeClaim consumer session claim st.world).2
      ∧ st1.phase claim.key = Phase.returned := by
  obtain ⟨st1, h1, h2, h3⟩ := run_messages consumer claim [Action.ret claim] claim.Messages
    ⟨st.world.SetReady consumer.handler claim.Partition true,
      setAt st.phase claim.key Phase.running,
      setAt st.lastFailed claim.key false,
      setAt st.latest claim.Partition (some claim.Topic)⟩ (by simp [setAt])
  have hrun1 : st1.phase claim.key = Phase.running := by rw [h1]; simp [setAt]
  refine ⟨⟨st1.world, setAt st1.phase claim.key Phase.returned, st1.lastFailed, st1.latest⟩,
    ?_, ?_, ?_⟩
  · simp only [claimActions, run, step, hidle, ne_eq, not_false_eq_true, if_true]
    rw [h3]
    simp [run, step, hrun1]
  · simp only [ConsumeClaim]
    rw [consumeLoop_open_eq_foldl consumer session claim claim.Messages 0 _
      (by intro j hj; simpa using hopen j hj)]
    exact h2
  · simp [setAt]

/-- Two claims with one partition number share one readiness entry: after the claim on
`"topic"`/0 has been entered and has failed on offset 1, entering the claim on `"other"`/0
makes partition 0 ready again, although the latest call of the first claim loop failed. -/
theorem engine_two_topics_one_partition :
    ∃ st, run (NewConsumerHandler oddFailsHandler)
        [Action.entry exampleClaim, Action.message exampleClaim (exampleMessage 1),
          Action.entry otherClaim] (EngineState.init 0) = some st
      ∧ st.readiness 0 = true
      ∧ st.lastFailed ("topic", 0) = true
      ∧ st.latest 0 = some "other"
      ∧ st.lastFailed ("other", 0) = false :=
  ⟨_, rfl, rfl, rfl, rfl, rfl⟩

/-- C4, as amended: in every reachable state of the engine, a partition's readiness entry
is true only if, for the claim entered most recently on that partition number,
`ConsumeClaim` has been entered and `Cleanup` has not run since (its claim loop is running,
or has returned and awaits `Cleanup`), and the most recent call of `Handle` of that claim
loop, if any, did not fail. -/
theorem engine_ready_only_between_entry_and_Cleanup {σ : Type}
    (consumer : SaramaConsumerHandler σ) (s : σ) (st : EngineState σ)
    (hreach : Reachable consumer s st) (p : Int) (hready : st.readiness p = true) :
    ∃ t, st.latest p = some t
      ∧ (st.phase (t, p) = Phase.running ∨ st.phase (t, p) = Phase.returned)
      ∧ st.lastFailed (t, p) = false := by
  obtain ⟨actions, hrun⟩ := hreach
  have hinit : EngineInvariant (EngineState.init s) := by
    intro q hq
    simp [EngineState.readiness, EngineState.init, World.start, readinessAfter] at hq
  obtain ⟨t, h1, h2, h3⟩ := run_keeps_invariant consumer actions _ st hinit hrun p hready
  refine ⟨t, h1, ?_, h3⟩
  cases hph : st.phase (t, p) with
  | idle => exact absurd hph h2
  | running => exact Or.inl rfl
  | returned => exact Or.inr rfl

/-- C4, as amended, at the state reached by entering the claim on `"topic"`/0, processing
offset 1 with the handler failing on odd offsets, and entering the claim on `"other"`/0:
partition 0 is ready, and the claim entered most recently for it is the one on `"other"`. -/
theorem engine_ready_only_between_entry_and_Cleanup_witness :
    ∃ st, Reachable (NewConsumerHandler oddFailsHandler) 0 st ∧ st.readiness 0 = true
      ∧ ∃ t, st.latest 0 = some t
        ∧ (st.phase (t, 0) = Phase.running ∨ st.phase (t, 0) = Phase.returned)
        ∧ st.lastFailed (t, 0) = false :=
  engine_two_topics_one_partition.imp (fun st hst =>
    ⟨⟨_, hst.1⟩, hst.2.1,
      engine_ready_only_between_entry_and_Cleanup (NewConsumerHandler oddFailsHandler) 0 st
        ⟨_, hst.1⟩ 0 hst.2.1⟩)

/-- C4 as stated fails: after `ConsumeClaim` has been entered for the claim on partition 0
and has returned, and before `Cleanup` runs, partition 0 is ready although no claim loop of
partition 0 is running. -/
theorem engine_ready_after_ConsumeClaim_returned :
    ¬ (∀ (st : EngineState Nat) (p : Int),
        Reachable (NewConsumerHandler markAllHandler) 0 st →
        st.readiness p = true →
        ∃ t, st.phase (t, p) = Phase.running ∧ st.lastFailed (t, p) = false) := by
  intro h
  have hreach : Reachable (NewConsumerHandler markAllHandler) 0
      ⟨(World.start 0).SetReady markAllHandler 0 true,
        setAt (setAt (fun _ => Phase.idle) ("topic", 0) Phase.running) ("topic", 0)
          Phase.returned,
        setAt (fun _ => false) ("topic", 0) false,
        setAt (fun _ => none) 0 (some "topic")⟩ :=
    ⟨[Action.entry ⟨"topic", 0, 0, []⟩, Action.ret ⟨"topic", 0, 0, []⟩], rfl⟩
  obtain ⟨t, h1, -⟩ := h _ 0 hreach rfl
  by_cases ht : t = "topic"
  · simp [setAt, ht] at h1
  · simp [setAt, ht] at h1

/-! ## The rate limiter -/

/-- C7: once a permit is received from `guard`, `rateLimiter.Handle` returns the result of
one call of the wrapped handler on the same context and message, unchanged, and leaves the
wrapped handler in the state that one call leaves it in (for a handler that records its
calls: exactly one more call, with this context and this message); the permit is used up.
Without a permit the call is still blocked and the wrapped handler is not called. -/
theorem rateLimiter_Handle_delegates_once {σ : Type} (rl : rateLimiter σ) (ctx : Context)
    (msg : ConsumerMessage) (permit : Bool) (s : σ) :
    rl.Handle ctx msg ⟨some permit, s⟩
        = some ((rl.handler ctx msg s).1, ⟨none, (rl.handler ctx msg s).2⟩)
    ∧ (∀ (result : Context → ConsumerMessage → Bool × Option Error)
        (log : List (Context × ConsumerMessage)),
        (rateLimiter.mk (recordingHandler result)).Handle ctx msg ⟨some permit, log⟩
          = some (result ctx msg, ⟨none, log ++ [(ctx, msg)]⟩))
    ∧ rl.Handle ctx msg ⟨none, s⟩ = none :=
  ⟨rfl, fun _ _ => rfl, rfl⟩

/-- What ties ticks, calls and the permit on offer: a permit is on offer exactly when one
more tick has fired than calls were delegated, and otherwise the two numbers agree. -/
theorem limiterStep_keeps_count {σ : Type} (rl : rateLimiter σ) (st st1 : PacedState σ)
    (a : LimiterAction)
    (hinv : st.ticks = st.calls + (if st.limiter.guard.isSome then 1 else 0))
    (hstep : limiterStep rl st a = some st1) :
    st1.ticks = st1.calls + (if st1.limiter.guard.isSome then 1 else 0) := by
  obtain ⟨⟨guard, inner⟩, ticks, calls⟩ := st
  cases a with
  | tick =>
    cases guard with
    | none =>
      simp only [limiterStep] at hstep
      cases hstep
      simpa using hinv
    | some v => simp [limiterStep] at hstep
  | handle ctx msg =>
    cases guard with
    | none => simp [limiterStep, rateLimiter.Handle] at hstep
    | some v =>
      simp only [limiterStep, rateLimiter.Handle] at hstep
      cases hstep
      simpa using hinv

theorem limiterRun_keeps_count {σ : Type} (rl : rateLimiter σ) :
    ∀ (actions : List LimiterAction) (st st1 : PacedState σ),
      st.ticks = st.calls + (if st.limiter.guard.isSome then 1 else 0) →
      limiterRun rl actions st = some st1 →
      st1.ticks = st1.calls + (if st1.limiter.guard.isSome then 1 else 0) := by
  intro actions
  induction actions with
  | nil =>
    intro st st1 hinv hrun
    simp only [limiterRun] at hrun
    cases hrun
    exact hinv
  | cons a rest ih =>
    intro st st1 hinv hrun
    simp only [limiterRun] at hrun
    cases hs : limiterStep rl st a with
    | none => rw [hs] at hrun; cases hrun
    | some st2 =>
      rw [hs] at hrun
      exact ih st2 st1 (limiterStep_keeps_count rl st st2 a hinv hs) hrun

/-- With a wrapped handler that records its calls, the record grows by one entry per
delegated call and by nothing else. -/
theorem limiterRun_recording (result : Context → ConsumerMessage → Bool × Option Error) :
    ∀ (actions : List LimiterAction) (st st1 : PacedState (List (Context × ConsumerMessage))),
      limiterRun ⟨recordingHandler result⟩ actions st = some st1 →
      st1.limiter.inner.length + st.calls = st.limiter.inner.length + st1.calls := by
  intro actions
  induction actions with
  | nil =>
    intro st st1 hrun
    simp only [limiterRun] at hrun
    cases hrun
    rfl
  | cons a rest ih =>
    intro st st1 hrun
    simp only [limiterRun] at hrun
    cases hs : limiterStep ⟨recordingHandler result⟩ st a with
    | none => rw [hs] at hrun; cases hrun
    | some st2 =>
      rw [hs] at hrun
      have h2 := ih st2 st1 hrun
      obtain ⟨⟨guard, inner⟩, ticks, calls⟩ := st
      cases a with
      | tick =>
        cases guard with
        | none =>
          simp only [limiterStep] at hs
          cases hs
          simpa using h2
        | some v => simp [limiterStep] at hs
      | handle ctx msg =>
        cases guard with
        | none => simp [limiterStep, rateLimiter.Handle] at hs
        | some v =>
          simp only [limiterStep, rateLimiter.Handle, recordingHandler] at hs
          cases hs
          simp only [List.length_append, List.length_singleton] at h2
          simp only
          omega

/-- C8: in every execution of a rate limiter built with rate `R > 0`, each tick of the
pacing goroutine offers one permit, a permit is never buffered (at most one is on offer,
and a tick cannot fire while one is), each delegated call uses up one permit, and so the
number of calls delegated to the wrapped handler never exceeds the number of ticks fired,
which never exceeds it by more than one: at most one call per tick. A wrapped handler that
records its calls has been called exactly as many times as calls were delegated. (The
real-time length `1/R` of a tick is outside the embedding.) -/
theorem rateLimiter_calls_never_exceed_ticks (rps : Int) (hrps : 0 < rps) :
    (∀ (σ : Type) (handler : HandleFunc σ) (s : σ) (st : PacedState σ),
        LimiterReachable rps handler s st →
        st.calls ≤ st.ticks
        ∧ st.ticks ≤ st.calls + 1
        ∧ (st.limiter.guard = none ↔ st.ticks = st.calls)
        ∧ (st.limiter.guard ≠ none →
            limiterStep (NewRateLimiter rps handler s).1 st LimiterAction.tick = none)
        ∧ (st.limiter.guard = none → ∀ ctx msg,
            limiterStep (NewRateLimiter rps handler s).1 st (LimiterAction.handle ctx msg)
              = none))
    ∧ (∀ (result : Context → ConsumerMessage → Bool × Option Error)
        (log : List (Context × ConsumerMessage))
        (st : PacedState (List (Context × ConsumerMessage))),
        LimiterReachable rps (recordingHandler result) log st →
        st.limiter.inner.length = log.length + st.calls
        ∧ st.limiter.inner.length ≤ log.length + st.ticks) := by
  have _ := hrps
  have hcount : ∀ (σ : Type) (handler : HandleFunc σ) (s : σ) (st : PacedState σ),
      LimiterReachable rps handler s st →
      st.ticks = st.calls + (if st.limiter.guard.isSome then 1 else 0) := by
    intro σ handler s st hreach
    obtain ⟨actions, hrun⟩ := hreach
    exact limiterRun_keeps_count _ actions _ st (by simp [NewRateLimiter]) hrun
  constructor
  · intro σ handler s st hreach
    have h := hcount σ handler s st hreach
    cases hg : st.limiter.guard with
    | none =>
      simp only [hg, Option.isSome_none, Bool.false_eq_true, if_false, Nat.add_zero] at h
      refine ⟨by omega, by omega, ⟨fun _ => h, fun _ => rfl⟩, fun hne => absurd rfl hne, ?_⟩
      intro _ ctx msg
      simp [limiterStep, rateLimiter.Handle, hg]
    | some v =>
      simp only [hg, Option.isSome_some, if_true] at h
      refine ⟨by omega, by omega, ⟨fun hc => (by cases hc), fun hc => (by omega)⟩, ?_,
        fun hc => (by cases hc)⟩
      intro _
      simp [limiterStep, hg]
  · intro result log st hreach
    have h := hcount _ _ log st hreach
    obtain ⟨actions, hrun⟩ := hreach
    have hrec := limiterRun_recording result actions _ st hrun
    simp only [NewRateLimiter, Nat.add_zero] at hrec
    constructor
    · exact hrec
    · have : st.calls ≤ st.ticks := by
        rw [h]; omega
      omega

/-- C8 on a limiter of rate 5 around a recording handler, after a tick, a call and a
second tick: two ticks, one delegated call, one recorded call. -/
theorem rateLimiter_calls_never_exceed_ticks_witness :
    (0 : Int) < 5
    ∧ ∃ st, limiterRun (NewRateLimiter 5 (recordingHandler (fun _ _ => (true, none))) []).1
          [LimiterAction.tick, LimiterAction.handle Context.Background (exampleMessage 0),
            LimiterAction.tick]
          ⟨(NewRateLimiter 5 (recordingHandler (fun _ _ => (true, none))) []).2, 0, 0⟩
          = some st
        ∧ st.ticks = 2 ∧ st.calls = 1
        ∧ st.limiter.inner = [(Context.Background, exampleMessage 0)]
        ∧ st.calls ≤ st.ticks :=
  ⟨by decide, _, rfl, rfl, rfl, rfl,
    ((rateLimiter_calls_never_exceed_ticks 5 (by decide)).1 _
      (recordingHandler (fun _ _ => (true, none))) [] _
      ⟨[LimiterAction.tick, LimiterAction.handle Context.Background (exampleMessage 0),
        LimiterAction.tick], rfl⟩).1⟩

/-! ## The placement model -/

theorem wrapInt32_add_left (a b : Int) : wrapInt32 (wrapInt32 a + b) = wrapInt32 (a + b) := by
  unfold wrapInt32
  omega

theorem wrapInt32_of_inRange (a : Int) (h1 : -2147483648 ≤ a) (h2 : a ≤ 2147483647) :
    wrapInt32 a = a := by
  unfold wrapInt32
  omega

theorem GetTotalReplicas_loop_eq :
    ∀ (placements : List Placement) (a : Int),
      GetTotalReplicas.loop placements (wrapInt32 a)
        = wrapInt32 (a + (placements.map (fun p => p.Replicas)).sum) := by
  intro placements
  induction placements with
  | nil => intro a; simp [GetTotalReplicas.loop]
  | cons p rest ih =>
    intro a
    simp only [GetTotalReplicas.loop, List.map_cons, List.sum_cons]
    rw [wrapInt32_add_left, ih, Int.add_assoc]

/-- C9: `GetTotalReplicas` returns the sum of the replica counts of all entries of the
list, taken as `int32` (the sum reduced modulo 2^32 into the `int32` range, which is the
sum itself whenever the sum is an `int32`); it returns 0 for the empty list and 3 for
`[{pod a, replicas 1}, {pod b, replicas 2}]`. -/
theorem GetTotalReplicas_is_sum (placements : List Placement) :
    GetTotalReplicas placements = wrapInt32 ((placements.map (fun p => p.Replicas)).sum)
    ∧ (-2147483648 ≤ (placements.map (fun p => p.Replicas)).sum
        ∧ (placements.map (fun p => p.Replicas)).sum ≤ 2147483647 →
        GetTotalReplicas placements = (placements.map (fun p => p.Replicas)).sum)
    ∧ GetTotalReplicas [] = 0
    ∧ (∀ o1 o2 : String, GetTotalReplicas [⟨"a", o1, 1⟩, ⟨"b", o2, 2⟩] = 3) := by
  have h : GetTotalReplicas placements
      = wrapInt32 ((placements.map (fun p => p.Replicas)).sum) := by
    have := GetTotalReplicas_loop_eq placements 0
    simpa [GetTotalReplicas, wrapInt32] using this
  refine ⟨h, ?_, rfl, fun _ _ => rfl⟩
  intro hr
  rw [h, wrapInt32_of_inRange _ hr.1 hr.2]

/-- C9 at the three example placements, of replica counts 2, 1 and 5. -/
theorem GetTotalReplicas_is_sum_witness :
    (-2147483648 ≤ (examplePlacements.map (fun p => p.Replicas)).sum
        ∧ (examplePlacements.map (fun p => p.Replicas)).sum ≤ 2147483647)
    ∧ GetTotalReplicas examplePlacements = 8 :=
  ⟨by decide, (GetTotalReplicas_is_sum examplePlacements).2.1 (by decide)⟩

theorem GetPlacementForPod_loop_some (podName : String) :
    ∀ (l : List Placement) (i0 i : Nat),
      GetPlacementForPod.loop podName l i0 = some i ↔
        ∃ k, i = i0 + k ∧ (∃ e, l[k]? = some e ∧ e.PodName = podName)
          ∧ ∀ j, j < k → ∀ e, l[j]? = some e → e.PodName ≠ podName := by
  intro l
  induction l with
  | nil => intro i0 i; simp [GetPlacementForPod.loop]
  | cons p rest ih =>
    intro i0 i
    simp only [GetPlacementForPod.loop]
    by_cases hp : p.PodName = podName
    · rw [if_pos hp]
      constructor
      · intro h
        cases h
        exact ⟨0, rfl, ⟨p, List.getElem?_cons_zero, hp⟩, fun j hj => absurd hj (Nat.not_lt_zero j)⟩
      · rintro ⟨k, rfl, -, hbefore⟩
        cases k with
        | zero => rfl
        | succ k => exact absurd hp (hbefore 0 (Nat.succ_pos k) p List.getElem?_cons_zero)
    · rw [if_neg hp, ih]
      constructor
      · rintro ⟨k, rfl, ⟨e, he, hen⟩, hbefore⟩
        refine ⟨k + 1, by omega, ⟨e, by simpa using he, hen⟩, ?_⟩
        intro j hj e2 he2
        cases j with
        | zero =>
          simp only [List.getElem?_cons_zero, Option.some.injEq] at he2
          subst he2
          exact hp
        | succ j => exact hbefore j (by omega) e2 (by simpa using he2)
      · rintro ⟨k, rfl, ⟨e, he, hen⟩, hbefore⟩
        cases k with
        | zero =>
          simp only [List.getElem?_cons_zero, Option.some.injEq] at he
          subst he
          exact absurd hen hp
        | succ k =>
          exact ⟨k, by omega, ⟨e, by simpa using he, hen⟩,
            fun j hj e2 he2 => hbefore (j + 1) (by omega) e2 (by simpa using he2)⟩

theorem GetPlacementForPod_loop_none (podName : String) :
    ∀ (l : List Placement) (i0 : Nat),
      GetPlacementForPod.loop podName l i0 = none ↔ ∀ e ∈ l, e.PodName ≠ podName := by
  intro l
  induction l with
  | nil => intro i0; simp [GetPlacementForPod.loop]
  | cons p rest ih =>
    intro i0
    simp only [GetPlacementForPod.loop]
    by_cases hp : p.PodName = podName
    · simp [hp]
    · simp [hp, ih]

/-- C10: `GetPlacementForPod` returns a pointer to the entry at the smallest index whose
`PodName` is the given name, returns `nil` exactly when no entry has that `PodName`, and
leaves the list as it was. -/
theorem GetPlacementForPod_first_match (placements : List Placement) (podName : String) :
    (∀ i, (GetPlacementForPod placements podName).pointer = some i ↔
        (∃ e, placements[i]? = some e ∧ e.PodName = podName)
          ∧ ∀ j, j < i → ∀ e, placements[j]? = some e → e.PodName ≠ podName)
    ∧ ((GetPlacementForPod placements podName).pointer = none ↔
        ∀ e ∈ placements, e.PodName ≠ podName)
    ∧ (∀ i, (GetPlacementForPod placements podName).pointer = some i →
        (GetPlacementForPod placements podName).entry = placements[i]?)
    ∧ (GetPlacementForPod placements podName).placements = placements := by
  refine ⟨?_, GetPlacementForPod_loop_none podName placements 0, ?_, rfl⟩
  · intro i
    simp only [GetPlacementForPod]
    rw [GetPlacementForPod_loop_some]
    constructor
    · rintro ⟨k, hk, h⟩
      have : i = k := by omega
      subst this
      exact h
    · intro h
      exact ⟨i, by omega, h⟩
  · intro i hi
    simp only [LookupResult.entry, hi]
    rfl

/-- C10 on the three example placements: the first entry of pod `"a"` is at index 1, and
no entry is found for `"missing"`. -/
theorem GetPlacementForPod_first_match_witness :
    (GetPlacementForPod examplePlacements "a").pointer = some 1
    ∧ (GetPlacementForPod examplePlacements "a").entry = some ⟨"a", "source", 1⟩
    ∧ (∀ e ∈ examplePlacements, e.PodName ≠ "missing")
    ∧ (GetPlacementForPod examplePlacements "missing").pointer = none :=
  ⟨by decide, by decide, by decide,
    (GetPlacementForPod_first_match examplePlacements "missing").2.1.2 (by decide)⟩

/-! ## `CopyPlacements` -/

theorem arrayAt_append_left (h t : List (List Placement)) (a : Nat) (ha : a < h.length) :
    PlacementHeap.arrayAt ⟨h ++ t⟩ a = PlacementHeap.arrayAt ⟨h⟩ a := by
  simp [PlacementHeap.arrayAt, List.getElem?_append_left ha]

theorem arrayAt_append_fresh (h : List (List Placement)) (A : List Placement) :
    PlacementHeap.arrayAt ⟨h ++ [A]⟩ h.length = A := by
  simp [PlacementHeap.arrayAt]

theorem arrayAt_of_ge (h : List (List Placement)) (a : Nat) (ha : h.length ≤ a) :
    PlacementHeap.arrayAt ⟨h⟩ a = [] := by
  simp [PlacementHeap.arrayAt, List.getElem?_eq_none ha]

/-- A slice with an entry lies in an allocated array. -/
theorem inBounds_array_lt (h : List (List Placement)) (s : PlacementSlice)
    (hb : s.InBounds ⟨h⟩) (hlen : 0 < s.len) : s.array < h.length := by
  by_contra hge
  have h0 := arrayAt_of_ge h s.array (by omega)
  unfold PlacementSlice.InBounds at hb
  rw [h0] at hb
  simp at hb
  omega

theorem contents_length (s : PlacementSlice) (h : PlacementHeap) (hb : s.InBounds h) :
    (s.contents h).length = s.len := by
  unfold PlacementSlice.InBounds at hb
  simp only [PlacementSlice.contents, List.length_take, List.length_drop]
  omega

theorem contents_getElem? (s : PlacementSlice) (h : PlacementHeap) (i : Nat) (hi : i < s.len) :
    (s.contents h)[i]? = (h.arrayAt s.array)[s.off + i]? := by
  simp only [PlacementSlice.contents]
  rw [List.getElem?_take_of_lt hi, List.getElem?_drop]

/-- Reading a slice entry is reading the list of its contents. -/
theorem index_eq_contents (s : PlacementSlice) (h : PlacementHeap) (i : Nat) :
    s.index h i = (s.contents h)[i]? := by
  unfold PlacementSlice.index
  by_cases hi : i < s.len
  · rw [if_pos hi, contents_getElem? s h i hi]
  · rw [if_neg hi]
    symm
    apply List.getElem?_eq_none
    simp only [PlacementSlice.contents, List.length_take]
    omega

/-- A slice that was in bounds reads the same after an allocation. -/
theorem contents_append_fresh (h : List (List Placement)) (A : List Placement)
    (s : PlacementSlice) (hb : s.InBounds ⟨h⟩) :
    s.contents ⟨h ++ [A]⟩ = s.contents ⟨h⟩ := by
  by_cases hlen : 0 < s.len
  · have hlt := inBounds_array_lt h s hb hlen
    simp only [PlacementSlice.contents, arrayAt_append_left h [A] s.array hlt]
  · have h0 : s.len = 0 := by omega
    simp [PlacementSlice.contents, h0]

/-- An assignment through the slice over the newest array writes that array only. -/
theorem assign_fresh (h : List (List Placement)) (A : List Placement) (n i : Nat)
    (v : Placement) (hi : i < n) (hA : A.length = n) :
    PlacementSlice.assign ⟨h.length, 0, n⟩ ⟨h ++ [A]⟩ i v = some ⟨h ++ [A.set i v]⟩ := by
  unfold PlacementSlice.assign
  simp only [arrayAt_append_fresh, Nat.zero_add]
  rw [if_pos ⟨hi, by omega⟩, List.set_append_right _ _ (Nat.le_refl _)]
  simp

theorem assign_fresh_none (h : List (List Placement)) (A : List Placement) (n i : Nat)
    (v : Placement) (hi : ¬ i < n) :
    PlacementSlice.assign ⟨h.length, 0, n⟩ ⟨h ++ [A]⟩ i v = none := by
  unfold PlacementSlice.assign
  rw [if_neg (fun hc => hi hc.1)]

/-- Writing at position `i` leaves the first `i` entries as they were. -/
theorem take_set_same (l : List Placement) (i : Nat) (v : Placement) :
    (l.set i v).take i = l.take i := by
  apply List.ext_getElem?
  intro j
  rw [List.getElem?_take, List.getElem?_take]
  split
  · rw [List.getElem?_set_ne (by omega)]
  · rfl

/-- The loop of `CopyPlacements` fills the new array with the entries of the source,
entry after entry, and ends without a panic. -/
theorem CopyPlacements_loop_eq (h : List (List Placement)) (src : PlacementSlice)
    (hb : src.InBounds ⟨h⟩) :
    ∀ (k i : Nat) (A : List Placement), i + k = src.len → A.length = src.len →
      CopyPlacements.loop src ⟨h.length, 0, src.len⟩ k i ⟨h ++ [A]⟩
        = some ⟨h ++ [A.take i ++ (src.contents ⟨h⟩).drop i]⟩ := by
  have hcl := contents_length src ⟨h⟩ hb
  intro k
  induction k with
  | zero =>
    intro i A hik hA
    have hi : i = src.len := by omega
    simp only [CopyPlacements.loop]
    rw [List.take_of_length_le (by omega), List.drop_of_length_le (by omega), List.append_nil]
  | succ k ih =>
    intro i A hik hA
    have hi : i < src.len := by omega
    have hic : i < (src.contents ⟨h⟩).length := by omega
    have hidx : src.index ⟨h ++ [A]⟩ i = some ((src.contents ⟨h⟩)[i]) := by
      rw [index_eq_contents, contents_append_fresh h A src hb, List.getElem?_eq_getElem hic]
    simp only [CopyPlacements.loop, hidx, assign_fresh h A src.len i _ hi hA]
    rw [ih (i + 1) (A.set i ((src.contents ⟨h⟩)[i])) (by omega) (by simpa using hA)]
    have htake : (A.set i ((src.contents ⟨h⟩)[i])).take (i + 1)
        = A.take i ++ [(src.contents ⟨h⟩)[i]] := by
      rw [List.take_succ, List.getElem?_set_self (by omega), take_set_same]
      rfl
    rw [htake, List.append_assoc, List.singleton_append, ← List.drop_eq_getElem_cons hic]

/-- What `CopyPlacements` returns: the memory with one more array, holding the entries of
the source, and the slice over that array. -/
theorem CopyPlacements_eq (h : PlacementHeap) (placements : PlacementSlice)
    (hb : placements.InBounds h) :
    CopyPlacements h placements
      = some (⟨h.arrays ++ [placements.contents h]⟩, ⟨h.arrays.length, 0, placements.len⟩) := by
  obtain ⟨arrays⟩ := h
  have hloop := CopyPlacements_loop_eq arrays placements hb placements.len 0
    (List.replicate placements.len Placement.zero) (by omega) (by simp)
  simp only [List.take_zero, List.nil_append, List.drop_zero] at hloop
  simp only [CopyPlacements, makePlacements, hloop]

/-- The run of `CopyPlacements` on the slice of the last two example placements: a second
array is allocated and filled with these two entries, the first array is as before. -/
theorem CopyPlacements_example :
    CopyPlacements exampleHeap ⟨0, 1, 2⟩
      = some (⟨[examplePlacements, [⟨"a", "source", 1⟩, ⟨"a", "source", 5⟩]]⟩, ⟨1, 0, 2⟩) := by
  rfl

/-- C11: on a slice that lies inside its backing array `CopyPlacements` returns, without
panic, a slice of the same length whose entry at each index is the entry of the original at
that index; the call leaves every slice of the memory it was given as it was, and so does
every later assignment to an entry of the copy, which changes that entry of the copy only. -/
theorem CopyPlacements_independent_copy (h : PlacementHeap) (placements : PlacementSlice)
    (hb : placements.InBounds h) :
    ∃ h1 result, CopyPlacements h placements = some (h1, result)
      ∧ result.len = placements.len
      ∧ (∀ i, result.index h1 i = placements.index h i)
      ∧ result.contents h1 = placements.contents h
      ∧ (∀ t : PlacementSlice, t.InBounds h → t.contents h1 = t.contents h)
      ∧ (∀ i v, i < result.len →
          ∃ h2, result.assign h1 i v = some h2
            ∧ result.contents h2 = (placements.contents h).set i v
            ∧ placements.contents h2 = placements.contents h)
      ∧ (∀ i v h2, result.assign h1 i v = some h2 →
          ∀ t : PlacementSlice, t.InBounds h → t.contents h2 = t.contents h) := by
  have hcl := contents_length placements h hb
  have hfresh : ∀ A : List Placement, A.length = placements.len →
      PlacementSlice.contents ⟨h.arrays.length, 0, placements.len⟩ ⟨h.arrays ++ [A]⟩ = A := by
    intro A hA
    simp only [PlacementSlice.contents, arrayAt_append_fresh, List.drop_zero]
    exact List.take_of_length_le (by omega)
  have hres := hfresh (placements.contents h) hcl
  refine ⟨⟨h.arrays ++ [placements.contents h]⟩, ⟨h.arrays.length, 0, placements.len⟩,
    CopyPlacements_eq h placements hb, rfl, ?_, hres, ?_, ?_, ?_⟩
  · intro i
    rw [index_eq_contents, index_eq_contents, hres]
  · intro t ht
    exact contents_append_fresh h.arrays _ t ht
  · intro i v hi
    refine ⟨⟨h.arrays ++ [(placements.contents h).set i v]⟩,
      assign_fresh h.arrays _ placements.len i v hi hcl, ?_, ?_⟩
    · exact hfresh _ (by simpa using hcl)
    · exact contents_append_fresh h.arrays _ placements hb
  · intro i v h2 hassign t ht
    by_cases hi : i < placements.len
    · rw [assign_fresh h.arrays _ placements.len i v hi hcl] at hassign
      cases hassign
      exact contents_append_fresh h.arrays _ t ht
    · rw [assign_fresh_none h.arrays _ placements.len i v hi] at hassign
      cases hassign

/-- C11 on the slice of the last two example placements. -/
theorem CopyPlacements_independent_copy_witness :
    PlacementSlice.InBounds ⟨0, 1, 2⟩ exampleHeap
    ∧ ∃ h1 result, CopyPlacements exampleHeap ⟨0, 1, 2⟩ = some (h1, result)
        ∧ result.contents h1 = [⟨"a", "source", 1⟩, ⟨"a", "source", 5⟩]
        ∧ ∀ i v h2, result.assign h1 i v = some h2 →
            PlacementSlice.contents ⟨0, 1, 2⟩ h2 = [⟨"a", "source", 1⟩, ⟨"a", "source", 5⟩] :=
  ⟨Nat.le_refl 3,
    (CopyPlacements_independent_copy exampleHeap ⟨0, 1, 2⟩ (Nat.le_refl 3)).imp
      (fun _ hx => hx.imp (fun _ hy =>
        ⟨hy.1, hy.2.2.2.1, fun i v h2 ha => hy.2.2.2.2.2.2 i v h2 ha ⟨0, 1, 2⟩ (Nat.le_refl 3)⟩))⟩

/-! ## `SetDefaults` -/

/-- The four cases of `TestKafkaChannelDefaults`, for any value of the two default
constants. -/
theorem TestKafkaChannelDefaults (constants : Constants) (ctx : Context) :
    KafkaChannel.SetDefaults constants ⟨none, ⟨0, 0, none⟩⟩ ctx
        = ⟨some (StringMap.empty.insert "messaging.knative.dev/subscribable" "v1"),
            ⟨constants.DefaultNumPartitions, constants.DefaultReplicationFactor,
              some ⟨none, some 10, some "exponential", some "PT0.1S"⟩⟩⟩
    ∧ KafkaChannel.SetDefaults constants ⟨none, ⟨0, 5, none⟩⟩ ctx
        = ⟨some (StringMap.empty.insert "messaging.knative.dev/subscribable" "v1"),
            ⟨constants.DefaultNumPartitions, 5,
              some ⟨none, some 10, some "exponential", some "PT0.1S"⟩⟩⟩
    ∧ KafkaChannel.SetDefaults constants ⟨none, ⟨10, 0, none⟩⟩ ctx
        = ⟨some (StringMap.empty.insert "messaging.knative.dev/subscribable" "v1"),
            ⟨10, constants.DefaultReplicationFactor,
              some ⟨none, some 10, some "exponential", some "PT0.1S"⟩⟩⟩
    ∧ KafkaChannel.SetDefaults constants ⟨none, ⟨10, 0, some ⟨none, some 10, none, none⟩⟩⟩ ctx
        = ⟨some (StringMap.empty.insert "messaging.knative.dev/subscribable" "v1"),
            ⟨10, constants.DefaultReplicationFactor, some ⟨none, some 10, none, none⟩⟩⟩ :=
  ⟨rfl, rfl, rfl, rfl⟩

theorem SetDefaults_annotationOf (constants : Constants) (c : KafkaChannel) (ctx : Context)
    (k : String) :
    (c.SetDefaults constants ctx).annotationOf k
      = if k = SubscribableDuckVersionAnnotation then
          some ((c.annotationOf SubscribableDuckVersionAnnotation).getD "v1")
        else c.annotationOf k := by
  obtain ⟨ann, spec⟩ := c
  cases ann with
  | none =>
    simp only [KafkaChannel.SetDefaults, KafkaChannel.annotationOf, StringMap.empty,
      StringMap.insert, Option.getD_none]
  | some m =>
    simp only [KafkaChannel.SetDefaults, KafkaChannel.annotationOf]
    cases hm : m SubscribableDuckVersionAnnotation with
    | none => simp only [StringMap.insert, Option.getD_none]
    | some v =>
      by_cases hk : k = SubscribableDuckVersionAnnotation
      · simp only [hk, if_true, hm, Option.getD_some]
      · simp only [hk, if_false]

theorem SetDefaults_delivery (constants : Constants) (cs : KafkaChannelSpec) (ctx : Context) :
    (cs.SetDefaults constants ctx).Delivery
      = match retryOf cs.Delivery with
        | none => some ⟨deadLetterSinkOf cs.Delivery, some 10, some BackoffPolicyExponential,
            some "PT0.1S"⟩
        | some _ => cs.Delivery := by
  obtain ⟨np, rf, del⟩ := cs
  cases del with
  | none => rfl
  | some d =>
    obtain ⟨dls, retry, bp, bd⟩ := d
    cases retry <;> rfl

theorem SetDefaults_spec_idempotent (constants : Constants) (cs : KafkaChannelSpec)
    (ctx ctx2 : Context) :
    (cs.SetDefaults constants ctx).SetDefaults constants ctx2 = cs.SetDefaults constants ctx := by
  obtain ⟨np, rf, del⟩ := cs
  have hnp : ∀ (a d : Int), (if (if a = 0 then d else a) = 0 then d else if a = 0 then d else a)
      = if a = 0 then d else a := by
    intro a d
    split_ifs <;> simp_all
  rcases del with _ | ⟨dls, retry, bp, bd⟩
  · simp only [KafkaChannelSpec.SetDefaults, hnp]
  · cases retry <;> simp only [KafkaChannelSpec.SetDefaults, hnp]

theorem SetDefaults_annotations_idempotent (constants : Constants) (c : KafkaChannel)
    (ctx ctx2 : Context) :
    ((c.SetDefaults constants ctx).SetDefaults constants ctx2).Annotations
      = (c.SetDefaults constants ctx).Annotations := by
  obtain ⟨ann, spec⟩ := c
  cases ann with
  | none =>
    simp [KafkaChannel.SetDefaults, StringMap.empty, StringMap.insert]
  | some m =>
    cases hm : m SubscribableDuckVersionAnnotation with
    | none => simp [KafkaChannel.SetDefaults, StringMap.insert, hm]
    | some v => simp [KafkaChannel.SetDefaults, hm]

/-- C12: `SetDefaults` on a `KafkaChannel`: `NumPartitions` and `ReplicationFactor` become
the default constants when they are 0 and are kept otherwise; the annotation
`messaging.knative.dev/subscribable` becomes `"v1"` when absent and is kept otherwise, the
other annotations being kept; when `Delivery` or its `Retry` is unset, `Delivery` becomes
`Retry = 10`, `BackoffPolicy = exponential`, `BackoffDelay = "PT0.1S"` (with the dead letter
sink it had); when `Retry` is set, `Delivery` is left exactly as given. -/
theorem SetDefaults_fills_unset (constants : Constants) (c : KafkaChannel) (ctx : Context) :
    (c.Spec.NumPartitions = 0 →
        (c.SetDefaults constants ctx).Spec.NumPartitions = constants.DefaultNumPartitions)
    ∧ (c.Spec.NumPartitions ≠ 0 →
        (c.SetDefaults constants ctx).Spec.NumPartitions = c.Spec.NumPartitions)
    ∧ (c.Spec.ReplicationFactor = 0 →
        (c.SetDefaults constants ctx).Spec.ReplicationFactor
          = constants.DefaultReplicationFactor)
    ∧ (c.Spec.ReplicationFactor ≠ 0 →
        (c.SetDefaults constants ctx).Spec.ReplicationFactor = c.Spec.ReplicationFactor)
    ∧ (c.annotationOf "messaging.knative.dev/subscribable" = none →
        (c.SetDefaults constants ctx).annotationOf "messaging.knative.dev/subscribable"
          = some "v1")
    ∧ (∀ v, c.annotationOf "messaging.knative.dev/subscribable" = some v →
        (c.SetDefaults constants ctx).annotationOf "messaging.knative.dev/subscribable" = some v)
    ∧ (∀ k, k ≠ "messaging.knative.dev/subscribable" →
        (c.SetDefaults constants ctx).annotationOf k = c.annotationOf k)
    ∧ (retryOf c.Spec.Delivery = none →
        (c.SetDefaults constants ctx).Spec.Delivery
          = some ⟨deadLetterSinkOf c.Spec.Delivery, some 10, some "exponential", some "PT0.1S"⟩)
    ∧ (∀ d n, c.Spec.Delivery = some d → d.Retry = some n →
        (c.SetDefaults constants ctx).Spec.Delivery = some d) := by
  have hann := SetDefaults_annotationOf constants c ctx
  have hdel := SetDefaults_delivery constants c.Spec ctx
  have hkey : SubscribableDuckVersionAnnotation = "messaging.knative.dev/subscribable" := rfl
  rw [hkey] at hann
  refine ⟨?_, ?_, ?_, ?_, ?_, ?_, ?_, ?_, ?_⟩
  · intro h0
    simp [KafkaChannel.SetDefaults, KafkaChannelSpec.SetDefaults, h0]
  · intro h0
    simp [KafkaChannel.SetDefaults, KafkaChannelSpec.SetDefaults, h0]
  · intro h0
    simp [KafkaChannel.SetDefaults, KafkaChannelSpec.SetDefaults, h0]
  · intro h0
    simp [KafkaChannel.SetDefaults, KafkaChannelSpec.SetDefaults, h0]
  · intro hnone
    rw [hann, if_pos rfl, hnone]
    rfl
  · intro v hv
    rw [hann, if_pos rfl, hv]
    rfl
  · intro k hk
    rw [hann, if_neg hk]
  · intro hr
    show (c.Spec.SetDefaults constants ctx).Delivery = _
    rw [hdel, hr]
    rfl
  · intro d n hd hn
    show (c.Spec.SetDefaults constants ctx).Delivery = _
    rw [hdel, hd]
    simp only [retryOf, hn]

/-- C12 on a channel without annotations, with `NumPartitions` unset, `ReplicationFactor` 5
and a delivery holding a dead letter sink and backoff fields but no retry count. -/
theorem SetDefaults_fills_unset_witness :
    ((⟨none, ⟨0, 5, some exampleDelivery⟩⟩ : KafkaChannel).Spec.NumPartitions = 0
      ∧ (⟨none, ⟨0, 5, some exampleDelivery⟩⟩ : KafkaChannel).Spec.ReplicationFactor ≠ 0
      ∧ retryOf (⟨none, ⟨0, 5, some exampleDelivery⟩⟩ : KafkaChannel).Spec.Delivery = none)
    ∧ (KafkaChannel.SetDefaults exampleConstants ⟨none, ⟨0, 5, some exampleDelivery⟩⟩
        Context.Background).Spec
      = ⟨4, 5, some ⟨some "dead-letters", some 10, some "exponential", some "PT0.1S"⟩⟩
    ∧ (KafkaChannel.SetDefaults exampleConstants ⟨none, ⟨0, 5, some exampleDelivery⟩⟩
        Context.Background).Spec.Delivery
      = some ⟨some "dead-letters", some 10, some "exponential", some "PT0.1S"⟩ :=
  ⟨⟨rfl, by decide, rfl⟩, rfl,
    (SetDefaults_fills_unset exampleConstants ⟨none, ⟨0, 5, some exampleDelivery⟩⟩
      Context.Background).2.2.2.2.2.2.2.1 rfl⟩

/-- C13: `SetDefaults` is idempotent: applied twice it gives the channel, annotations and
spec, that it gives applied once. -/
theorem SetDefaults_idempotent (constants : Constants) (c : KafkaChannel) (ctx ctx2 : Context) :
    (c.SetDefaults constants ctx).SetDefaults constants ctx2 = c.SetDefaults constants ctx := by
  have hann := SetDefaults_annotations_idempotent constants c ctx ctx2
  have hspec := SetDefaults_spec_idempotent constants c.Spec ctx ctx2
  have hsplit : ∀ a b : KafkaChannel, a.Annotations = b.Annotations → a.Spec = b.Spec → a = b := by
    intro a b h1 h2
    cases a
    cases b
    simp only at h1 h2
    rw [h1, h2]
  exact hsplit _ _ hann hspec

/-- C14, as amended: on a `KafkaChannelSpec` whose `Delivery` is present with `Retry`
unset, `SetDefaults` sets `BackoffPolicy` to `exponential` and `BackoffDelay` to `"PT0.1S"`
whatever these two fields held, sets `Retry` to 10, and leaves every other field of
`Delivery` (the dead letter sink) as it was. -/
theorem SetDefaults_overwrites_backoff (constants : Constants) (cs : KafkaChannelSpec)
    (ctx : Context) (d : DeliverySpec) (hd : cs.Delivery = some d) (hr : d.Retry = none) :
    ∃ d1, (cs.SetDefaults constants ctx).Delivery = some d1
      ∧ d1.BackoffPolicy = some "exponential"
      ∧ d1.BackoffDelay = some "PT0.1S"
      ∧ d1.Retry = some 10
      ∧ d1.DeadLetterSink = d.DeadLetterSink := by
  refine ⟨⟨d.DeadLetterSink, some 10, some "exponential", some "PT0.1S"⟩, ?_, rfl, rfl, rfl, rfl⟩
  rw [SetDefaults_delivery, hd]
  simp only [retryOf, hr, deadLetterSinkOf]
  rfl

/-- C14, as amended, on a delivery with `BackoffPolicy = linear`, `BackoffDelay = "PT1S"`, a dead letter
sink and no retry count: both backoff fields are overwritten. -/
theorem SetDefaults_overwrites_backoff_witness :
    ((⟨10, 5, some exampleDelivery⟩ : KafkaChannelSpec).Delivery = some exampleDelivery
      ∧ exampleDelivery.Retry = none
      ∧ exampleDelivery.BackoffPolicy = some "linear")
    ∧ ∃ d1, (KafkaChannelSpec.SetDefaults exampleConstants ⟨10, 5, some exampleDelivery⟩
          Context.Background).Delivery = some d1
        ∧ d1.BackoffPolicy = some "exponential"
        ∧ d1.BackoffDelay = some "PT0.1S"
        ∧ d1.Retry = some 10
        ∧ d1.DeadLetterSink = exampleDelivery.DeadLetterSink :=
  ⟨⟨rfl, rfl, rfl⟩,
    SetDefaults_overwrites_backoff exampleConstants ⟨10, 5, some exampleDelivery⟩
      Context.Background exampleDelivery rfl rfl⟩

/-- C14 as stated fails: `Retry` is a field of `Delivery` other than `BackoffPolicy` and
`BackoffDelay`, and on a delivery without retry count `SetDefaults` does not leave it
unchanged but sets it to 10. -/
theorem SetDefaults_changes_Retry :
    ¬ (∀ (constants : Constants) (cs : KafkaChannelSpec) (ctx : Context) (d : DeliverySpec),
        cs.Delivery = some d → d.Retry = none →
        ∃ d1, (cs.SetDefaults constants ctx).Delivery = some d1
          ∧ d1.BackoffPolicy = some "exponential"
          ∧ d1.BackoffDelay = some "PT0.1S"
          ∧ d1.Retry = d.Retry
          ∧ d1.DeadLetterSink = d.DeadLetterSink) := by
  intro h
  obtain ⟨d1, h1, -, -, h4, -⟩ := h exampleConstants ⟨10, 5, some exampleDelivery⟩
    Context.Background exampleDelivery rfl rfl
  have hres : (KafkaChannelSpec.SetDefaults exampleConstants ⟨10, 5, some exampleDelivery⟩
      Context.Background).Delivery
      = some ⟨some "dead-letters", some 10, some "exponential", some "PT0.1S"⟩ := rfl
  rw [hres] at h1
  cases h1
  simp [exampleDelivery] at h4

end EventingKafka
